import Mathlib

/-!
Formal model of the eBPF abstract-interpretation verifier core.

The development shallowly embeds the abstract-interpretation engine of
the verifier: the checked 64-bit integers of src/crab/safeint.hpp, the
register/stack/packet abstract domains, the Machine transfer functions,
the assertion extractor and the worklist fixed-point driver of
src/src/ai.cpp.  The numeric-set, offset-set, RCP and stack-memory
domains live in headers that are not part of the three source files;
those definitions are modelled from the specification document and are
marked as such in their doc comments.  Everything else is translated
directly from the C++ sources.
-/

namespace EbpfAi

/-- Largest value of the C type int64_t. -/
def INT64_MAX : Int := 9223372036854775807

/-- Smallest value of the C type int64_t. -/
def INT64_MIN : Int := -9223372036854775808

/-- Two's-complement truncation of an unbounded integer to 64 signed bits,
used where the C++ code narrows a wider integer into an int64_t. -/
def wrap64 (x : Int) : Int := (x + 2 ^ 63) % 2 ^ 64 - 2 ^ 63

/-- Predicate: x fits in int64_t. -/
def inRange64 (x : Int) : Prop := INT64_MIN ≤ x ∧ x ≤ INT64_MAX

instance (x : Int) : Decidable (inRange64 x) := by
  unfold inRange64; infer_instance

namespace crab

/-- Embeds safe_i64::checked_add (src/crab/safeint.hpp): the sum is taken in
the 128-bit type, so it is mathematically exact; the int64_t out-parameter
receives the truncation and the returned flag reports overflow. -/
def checked_add (a b : Int) : Int × Bool :=
  let lr : Int := a + b
  (wrap64 lr, decide (lr > INT64_MAX ∨ lr < INT64_MIN))

/-- Embeds safe_i64::checked_sub (src/crab/safeint.hpp). -/
def checked_sub (a b : Int) : Int × Bool :=
  let lr : Int := a - b
  (wrap64 lr, decide (lr > INT64_MAX ∨ lr < INT64_MIN))

/-- Embeds safe_i64::checked_mul (src/crab/safeint.hpp); the product of two
int64_t values always fits in 128 bits, so the wide product is exact. -/
def checked_mul (a b : Int) : Int × Bool :=
  let lr : Int := a * b
  (wrap64 lr, decide (lr > INT64_MAX ∨ lr < INT64_MIN))

/-- Embeds safe_i64::checked_div (src/crab/safeint.hpp).  The 128-bit
division truncates toward zero, which is Int.tdiv.  Division by zero is
undefined behaviour in the source and outside this model's contract. -/
def checked_div (a b : Int) : Int × Bool :=
  let lr : Int := Int.tdiv a b
  (wrap64 lr, decide (lr > INT64_MAX ∨ lr < INT64_MIN))

/-- Embeds safe_i64::operator+ : on overflow the source raises CRAB_ERROR
(modelled as none) and never returns a wrapped value. -/
def safe_add (a b : Int) : Option Int :=
  let r := checked_add a b
  if r.2 then none else some r.1

/-- Embeds safe_i64::operator- (binary). -/
def safe_sub (a b : Int) : Option Int :=
  let r := checked_sub a b
  if r.2 then none else some r.1

/-- Embeds safe_i64::operator* . -/
def safe_mul (a b : Int) : Option Int :=
  let r := checked_mul a b
  if r.2 then none else some r.1

/-- Embeds safe_i64::operator/ . -/
def safe_div (a b : Int) : Option Int :=
  let r := checked_div a b
  if r.2 then none else some r.1

end crab

/-- Analysis-time failures of the abstract machine.  uninitReg carries the
register index of the runtime_error thrown by RegsDom::at
("Uninitialized register r" + index); undefinedInstr is the assert(false)
on the Undefined instruction; ub marks executions that are undefined
behaviour in the C++ source (dereferencing min_element of an empty
range, std::get on the wrong variant alternative). -/
inductive VError where
  | uninitReg (i : Nat)
  | undefinedInstr
  | ub
deriving DecidableEq

/-- Modelled from the spec: Condition::Op of the instruction AST
(asm_syntax.hpp is not among the source files); the spec lists
EQ/NE/LT/LE/GT/GE. -/
inductive CondOp where
  | EQ | NE | LT | LE | GT | GE
deriving DecidableEq

/-- Modelled from the spec: Bin::Op of the instruction AST; the spec lists
MOV plus the arithmetic and bitwise operations of section 4.1. -/
inductive BinOp where
  | MOV | ADD | SUB | MUL | DIV | MOD | OR | AND | LSH | RSH | ARSH | XOR
deriving DecidableEq

/-- Modelled from the spec: a Value operand is an immediate or a register
(registers are indices 0..15, r10 the frame pointer, 13/14 the
data_end/meta pseudo-slots). -/
inductive Value where
  | Imm (v : Int)
  | Reg (r : Nat)
deriving DecidableEq

/-- Modelled from the spec: a conditional jump / assume condition. -/
structure Condition where
  op : CondOp
  left : Nat
  right : Value
deriving DecidableEq

/-- Modelled from the spec: the memory-access operand of Mem/LockAdd. -/
structure Deref where
  basereg : Nat
  offset : Int
  width : Int
deriving DecidableEq

/-- Modelled from the spec: ArgSingle::Kind of a helper-call argument. -/
inductive ArgSingleKind where
  | ANYTHING | MAP_FD | PTR_TO_MAP_KEY | PTR_TO_MAP_VALUE | PTR_TO_CTX
deriving DecidableEq

/-- Modelled from the spec: a single (non-pair) helper-call argument. -/
structure ArgSingle where
  kind : ArgSingleKind
  reg : Nat
deriving DecidableEq

/-- Modelled from the spec: ArgPair::Kind of a (pointer, size) argument. -/
inductive ArgPairKind where
  | PTR_TO_MEM_OR_NULL | PTR_TO_MEM | PTR_TO_UNINIT_MEM
deriving DecidableEq

/-- Modelled from the spec: a (pointer register, size register) helper-call
argument with its can_be_zero flag. -/
structure ArgPair where
  kind : ArgPairKind
  mem : Nat
  size : Nat
  can_be_zero : Bool
deriving DecidableEq

/-- Modelled from the spec: map metadata; only value_size is consumed by
the core (upper bound of map-value accesses). -/
structure MapDef where
  value_size : Int
deriving DecidableEq

/-- Modelled from the spec: the context descriptor; negative field offsets
mean the field is not present.  The end field is named endF because end is
a Lean keyword. -/
structure CtxDescriptor where
  data : Int
  endF : Int
  meta : Int
  size : Int
deriving DecidableEq

/-- Modelled from the spec: program_info as consumed by the core. -/
structure program_info where
  map_defs : List MapDef
  descriptor : CtxDescriptor
deriving DecidableEq

/-- Modelled from the spec: STACK_SIZE, the byte size of the eBPF stack
frame; the constant lives in a header outside the given sources. -/
def STACK_SIZE : Int := 512

/-- Modelled from the spec: an index into the type universe
num/ctx/stack/packet/fd/map_i.  In the C++ bitset the maps occupy the low
indices 0..M-1 and the named kinds sit at fixed offsets after ALL_TYPES. -/
inductive TypeIdx where
  | mapIdx (i : Nat)
  | ctx | stack | packet | num | fd
deriving DecidableEq

/-- Modelled from the spec: a TypeSet is a finite bitset over
num, ctx, stack, packet, fd and one bit per declared map. -/
structure Types where
  maps : List Bool
  ctx : Bool
  stack : Bool
  packet : Bool
  num : Bool
  fd : Bool
deriving DecidableEq

/-- Membership of a type index in a type set. -/
def Types.has (t : Types) : TypeIdx → Bool
  | .mapIdx i => t.maps.getD i false
  | .ctx => t.ctx
  | .stack => t.stack
  | .packet => t.packet
  | .num => t.num
  | .fd => t.fd

namespace TypeSet

/-- Empty type set over M maps. -/
def noneT (M : Nat) : Types := ⟨List.replicate M false, false, false, false, false, false⟩

/-- TypeSet::all. -/
def all (M : Nat) : Types := ⟨List.replicate M true, true, true, true, true, true⟩

/-- TypeSet::num. -/
def num (M : Nat) : Types := { noneT M with num := true }

/-- TypeSet::fd. -/
def fd (M : Nat) : Types := { noneT M with fd := true }

/-- TypeSet::stack. -/
def stack (M : Nat) : Types := { noneT M with stack := true }

/-- TypeSet::packet. -/
def packet (M : Nat) : Types := { noneT M with packet := true }

/-- TypeSet::ctx. -/
def ctx (M : Nat) : Types := { noneT M with ctx := true }

/-- TypeSet::maps: every declared map, nothing else. -/
def maps (M : Nat) : Types := { noneT M with maps := List.replicate M true }

/-- TypeSet::mem = stack or packet or any map. -/
def mem (M : Nat) : Types :=
  { noneT M with maps := List.replicate M true, stack := true, packet := true }

/-- TypeSet::ptr = all minus num and fd. -/
def ptr (M : Nat) : Types :=
  { noneT M with maps := List.replicate M true, ctx := true, stack := true, packet := true }

/-- TypeSet::nonfd = all minus fd. -/
def nonfd (M : Nat) : Types :=
  ⟨List.replicate M true, true, true, true, true, false⟩

/-- Union of two type sets. -/
def unionT (a b : Types) : Types :=
  ⟨List.zipWith (fun x y => x || y) a.maps b.maps, a.ctx || b.ctx, a.stack || b.stack,
   a.packet || b.packet, a.num || b.num, a.fd || b.fd⟩

/-- TypeSet::single for a type index. -/
def single (M : Nat) : TypeIdx → Types
  | .mapIdx i => { noneT M with maps := (List.replicate M false).set i true }
  | .ctx => ctx M
  | .stack => stack M
  | .packet => packet M
  | .num => num M
  | .fd => fd M

end TypeSet

/-- Modelled from the spec: the register/types half of a TypeConstraint. -/
structure TCPart where
  reg : Nat
  types : Types
deriving DecidableEq

/-- Modelled from the spec: TypeConstraint, optionally guarded by a given
register/type hypothesis.  The unconditional field is named thenC because
then is a Lean keyword. -/
structure TypeConstraint where
  thenC : TCPart
  given : Option TCPart
deriving DecidableEq

/-- Modelled from the spec: LinearConstraint, field order as in the
C++ brace initializers of ai.cpp (op, reg, offset, width, v, when_types). -/
structure LinearConstraint where
  op : CondOp
  reg : Nat
  offset : Int
  width : Value
  v : Value
  when_types : Types
deriving DecidableEq

/-- Modelled from the spec: the InPacket bounds assertion. -/
structure InPacket where
  reg : Nat
  offset : Int
  width : Value
deriving DecidableEq

/-- Modelled from the spec: the Assertion variant carried by Assert
instructions. -/
inductive Assertion where
  | lin (lc : LinearConstraint)
  | tc (c : TypeConstraint)
  | inPacket (ip : InPacket)
deriving DecidableEq

/-- Modelled from the spec: the tagged instruction AST.  The Un operation
code and the Assert satisfied flag are omitted: neither influences any
transfer function in ai.cpp. -/
inductive Instruction where
  | Undefined
  | LoadMapFd (dst : Nat) (mapfd : Int)
  | Un (dst : Nat)
  | Bin (op : BinOp) (dst : Nat) (v : Value)
  | Assume (cond : Condition)
  | Assert (cst : Assertion)
  | Exit
  | Jmp (cond : Option Condition)
  | Call (singles : List ArgSingle) (pairs : List ArgPair) (returns_map : Bool)
  | Packet
  | Mem (access : Deref) (value : Value) (is_load : Bool)
  | LockAdd (access : Deref) (v : Value)
deriving DecidableEq

/-- Modelled from the spec: NumDomSet (ai_dom_set.hpp is not among the
source files): BOT is the empty set with top=false, a finite set keeps its
elements in elems, and TOP is an explicit flag.  MinSizeDom and ai.cpp
access the elems vector and the is_bot/is_top/is_single/contains
predicates directly, which fixes this representation. -/
structure NumDomSet where
  top : Bool
  elems : List Int
deriving DecidableEq

/-- Modelled from the spec: OffsetDomSet is structurally identical to
NumDomSet. -/
abbrev OffsetDomSet := NumDomSet

namespace NumDomSet

/-- The bottom (empty) value set. -/
def bot : NumDomSet := ⟨false, []⟩

/-- The TOP (any number) value set. -/
def topSet : NumDomSet := ⟨true, []⟩

/-- Singleton value set. -/
def single (v : Int) : NumDomSet := ⟨false, [v]⟩

/-- Modelled from the spec: BOT is the empty set. -/
def is_bot (s : NumDomSet) : Bool := !s.top && s.elems.isEmpty

/-- Modelled from the spec: the explicit TOP flag. -/
def is_top (s : NumDomSet) : Bool := s.top

/-- Modelled from the spec: exactly one concrete value. -/
def is_single (s : NumDomSet) : Bool := !s.top && s.elems.length == 1

/-- Modelled from the spec: membership test; TOP contains every number. -/
def containsV (s : NumDomSet) (v : Int) : Bool := s.top || s.elems.contains v

/-- Modelled from the spec: the bound K on the size of a finite set
(typical 4); a join or arithmetic result beyond K widens to TOP. -/
def KTHRESH : Nat := 4

/-- Modelled from the spec: join is set union, collapsing to TOP above the
threshold; BOT is the neutral element and TOP absorbs. -/
def join (a b : NumDomSet) : NumDomSet :=
  if a.top || b.top then topSet
  else
    let u := a.elems ++ b.elems.filter (fun v => !a.elems.contains v)
    if KTHRESH < u.length then topSet else ⟨false, u⟩

/-- Modelled from the spec: meet is set intersection; BOT absorbs and TOP
is neutral. -/
def meet (a b : NumDomSet) : NumDomSet :=
  if a.top then b
  else if b.top then a
  else ⟨false, a.elems.filter (fun v => b.elems.contains v)⟩

/-- Removes duplicates keeping first occurrences. -/
def dedupInts (l : List Int) : List Int :=
  l.foldl (fun acc v => if acc.contains v then acc else acc ++ [v]) []

/-- Modelled from the spec: pointwise arithmetic on finite sets, BOT
absorbing, TOP absorbing, widening to TOP when the result outgrows K. -/
def lift2 (f : Int → Int → Int) (a b : NumDomSet) : NumDomSet :=
  if a.is_bot || b.is_bot then bot
  else if a.top || b.top then topSet
  else
    let u := dedupInts ((a.elems.map (fun x => b.elems.map (fun y => wrap64 (f x y)))).flatten)
    if KTHRESH < u.length then topSet else ⟨false, u⟩

/-- Unsigned 64-bit view of a wrapped integer, for the bitwise operations. -/
def toU64 (x : Int) : Nat := (x % 2 ^ 64).toNat

/-- Modelled from the spec: the concrete semantics of one numeric binary
operation; bitwise operations act on the two's-complement bit pattern and
shifts use the low 6 bits of the shift amount. -/
def binFun : BinOp → Int → Int → Int
  | .MOV, _, y => y
  | .ADD, x, y => x + y
  | .SUB, x, y => x - y
  | .MUL, x, y => x * y
  | .DIV, x, y => Int.tdiv x y
  | .MOD, x, y => x - y * Int.tdiv x y
  | .OR, x, y => Int.ofNat (Nat.lor (toU64 x) (toU64 y))
  | .AND, x, y => Int.ofNat (Nat.land (toU64 x) (toU64 y))
  | .LSH, x, y => Int.ofNat (Nat.shiftLeft (toU64 x) (toU64 y % 64))
  | .RSH, x, y => Int.ofNat (Nat.shiftRight (toU64 x) (toU64 y % 64))
  | .ARSH, x, y => Int.fdiv x (2 ^ (toU64 y % 64))
  | .XOR, x, y => Int.ofNat (Nat.xor (toU64 x) (toU64 y))

/-- Modelled from the spec: arith dispatch; division or modulo by a set
containing zero produces TOP and never traps. -/
def arith (op : BinOp) (a b : NumDomSet) : NumDomSet :=
  if (op == BinOp.DIV || op == BinOp.MOD) && b.containsV 0 then topSet
  else lift2 (binFun op) a b

/-- Decides one comparison on two concrete values. -/
def condOpHolds : CondOp → Int → Int → Bool
  | .EQ, x, y => x == y
  | .NE, x, y => x != y
  | .LT, x, y => x < y
  | .LE, x, y => x ≤ y
  | .GT, x, y => x > y
  | .GE, x, y => x ≥ y

/-- Modelled from the spec: assume(a, op, b) keeps the subset of a
consistent with the relation; when either side is TOP the left side is
returned unchanged (sound but imprecise). -/
def setAssume (a : NumDomSet) (op : CondOp) (b : NumDomSet) : NumDomSet :=
  if a.top || b.top then a
  else ⟨false, a.elems.filter (fun v => b.elems.any (fun w => condOpHolds op v w))⟩

end NumDomSet

/-- Modelled from the spec: RCP_domain (ai_dom_rcp.hpp is not among the
source files): an 8-tuple of independent components, one NumSet/OffsetSet
per region plus a singleton packet_end flag; the number of map components
equals the number of declared maps. -/
structure RCP_domain where
  num : NumDomSet
  ctx : OffsetDomSet
  stack : OffsetDomSet
  packet : OffsetDomSet
  fd : NumDomSet
  maps : List OffsetDomSet
  packet_end : Bool
deriving DecidableEq

namespace RCP_domain

/-- The all-bottom RCP value over M maps (the default-constructed
RCP_domain, the BOT member of Machine). -/
def botRCP (M : Nat) : RCP_domain :=
  ⟨NumDomSet.bot, NumDomSet.bot, NumDomSet.bot, NumDomSet.bot, NumDomSet.bot,
   List.replicate M NumDomSet.bot, false⟩

/-- Construction helper with_num for a concrete value. -/
def with_num (r : RCP_domain) (v : Int) : RCP_domain := { r with num := NumDomSet.single v }

/-- Construction helper with_num(TOP). -/
def with_numtop (r : RCP_domain) : RCP_domain := { r with num := NumDomSet.topSet }

/-- Construction helper with_ctx. -/
def with_ctx (r : RCP_domain) (o : Int) : RCP_domain := { r with ctx := NumDomSet.single o }

/-- Construction helper with_stack. -/
def with_stack (r : RCP_domain) (o : Int) : RCP_domain := { r with stack := NumDomSet.single o }

/-- Construction helper with_stack taking a whole offset set, as in the
with_stack({}) call of Machine::store. -/
def with_stackSet (r : RCP_domain) (s : OffsetDomSet) : RCP_domain := { r with stack := s }

/-- Construction helper with_packet. -/
def with_packet (r : RCP_domain) (o : Int) : RCP_domain := { r with packet := NumDomSet.single o }

/-- Construction helper with_fd. -/
def with_fd (r : RCP_domain) (m : Int) : RCP_domain := { r with fd := NumDomSet.single m }

/-- Construction helper with_packet_end. -/
def with_packet_end (r : RCP_domain) : RCP_domain := { r with packet_end := true }

/-- Machine::numtop, the unknown-number value. -/
def numtopM (M : Nat) : RCP_domain := (botRCP M).with_numtop

/-- Modelled from the spec: is_bot holds when every component is empty. -/
def is_bot (a : RCP_domain) : Bool :=
  a.num.is_bot && a.ctx.is_bot && a.stack.is_bot && a.packet.is_bot && a.fd.is_bot
    && a.maps.all NumDomSet.is_bot && !a.packet_end

/-- Modelled from the spec: must_be_num holds when no region component
other than num is inhabited. -/
def must_be_num (a : RCP_domain) : Bool :=
  a.ctx.is_bot && a.stack.is_bot && a.packet.is_bot && a.fd.is_bot
    && a.maps.all NumDomSet.is_bot && !a.packet_end

/-- Modelled from the spec: maybe_packet tests the packet component. -/
def maybe_packet (a : RCP_domain) : Bool := !a.packet.is_bot

/-- Modelled from the spec: maybe_map tests the map components. -/
def maybe_map (a : RCP_domain) : Bool := a.maps.any (fun s => !s.is_bot)

/-- Modelled from the spec: is_packet_end recognizes the pure packet_end
sentinel (flag set, every other component empty). -/
def is_packet_end (a : RCP_domain) : Bool :=
  a.packet_end && a.num.is_bot && a.ctx.is_bot && a.stack.is_bot && a.packet.is_bot
    && a.fd.is_bot && a.maps.all NumDomSet.is_bot

/-- Modelled from the spec: join is componentwise. -/
def joinR (a b : RCP_domain) : RCP_domain :=
  ⟨a.num.join b.num, a.ctx.join b.ctx, a.stack.join b.stack, a.packet.join b.packet,
   a.fd.join b.fd, List.zipWith NumDomSet.join a.maps b.maps, a.packet_end || b.packet_end⟩

/-- Modelled from the spec: meet is componentwise. -/
def meetR (a b : RCP_domain) : RCP_domain :=
  ⟨a.num.meet b.num, a.ctx.meet b.ctx, a.stack.meet b.stack, a.packet.meet b.packet,
   a.fd.meet b.fd, List.zipWith NumDomSet.meet a.maps b.maps, a.packet_end && b.packet_end⟩

/-- Modelled from the spec (glossary): havoc replaces a value by the most
general element, TOP in every component.  This is distinct from the
unknown-number value numtop: the Call transfer in ai.cpp havocs a value
that is already numtop, and load_ctx carries a TODO asking not to havoc
the fd component, so havoc must raise every component. -/
def havocR (a : RCP_domain) : RCP_domain :=
  ⟨NumDomSet.topSet, NumDomSet.topSet, NumDomSet.topSet, NumDomSet.topSet, NumDomSet.topSet,
   a.maps.map (fun _ => NumDomSet.topSet), true⟩

/-- Modelled from the spec: zero() keeps the shape of the value but
replaces each inhabited set component by the singleton zero; the Assert
transfer of ai.cpp uses it to anchor linear constraints at offset 0, which
requires the num component to be zeroed as well. -/
def zeroRCP (a : RCP_domain) : RCP_domain :=
  let z := fun (s : NumDomSet) => if s.is_bot then s else NumDomSet.single 0
  ⟨z a.num, z a.ctx, z a.stack, z a.packet, z a.fd, a.maps.map z, a.packet_end⟩

/-- Shifts every set component of a pointer by a numeric set. -/
def shiftOff (s : OffsetDomSet) (n : NumDomSet) : OffsetDomSet :=
  NumDomSet.lift2 (fun x y => x + y) s n

/-- Modelled from the spec: addition follows pointer/number arithmetic:
BOT absorbs; pointer plus number adjusts every offset component; any other
combination becomes num-TOP.  The fd component does not denote offsets and
is left in place when shifting. -/
def addRCP (a b : RCP_domain) : RCP_domain :=
  if a.is_bot || b.is_bot then botRCP a.maps.length
  else if b.must_be_num then
    ⟨NumDomSet.lift2 (fun x y => x + y) a.num b.num, shiftOff a.ctx b.num,
     shiftOff a.stack b.num, shiftOff a.packet b.num, a.fd,
     a.maps.map (fun s => shiftOff s b.num), a.packet_end⟩
  else if a.must_be_num then
    ⟨NumDomSet.lift2 (fun x y => x + y) a.num b.num, shiftOff b.ctx a.num,
     shiftOff b.stack a.num, shiftOff b.packet a.num, b.fd,
     b.maps.map (fun s => shiftOff s a.num), b.packet_end⟩
  else numtopM a.maps.length

/-- Lists the inhabited region components of a value together with their
payload, to detect same-region pointer subtraction. -/
def regionList (a : RCP_domain) : List (TypeIdx × NumDomSet) :=
  ((if a.num.is_bot then [] else [(TypeIdx.num, a.num)])
    ++ (if a.ctx.is_bot then [] else [(TypeIdx.ctx, a.ctx)])
    ++ (if a.stack.is_bot then [] else [(TypeIdx.stack, a.stack)])
    ++ (if a.packet.is_bot then [] else [(TypeIdx.packet, a.packet)])
    ++ (if a.fd.is_bot then [] else [(TypeIdx.fd, a.fd)])
    ++ ((List.range a.maps.length).filterMap (fun i =>
          let s := a.maps.getD i NumDomSet.bot
          if s.is_bot then none else some (TypeIdx.mapIdx i, s))))

/-- Modelled from the spec: subtraction: BOT absorbs; pointer minus number
shifts offsets; pointer minus a pointer of the same single region yields
the number set of offset differences; anything else is num-TOP. -/
def subRCP (a b : RCP_domain) : RCP_domain :=
  if a.is_bot || b.is_bot then botRCP a.maps.length
  else if b.must_be_num then
    ⟨NumDomSet.lift2 (fun x y => x - y) a.num b.num,
     NumDomSet.lift2 (fun x y => x - y) a.ctx b.num,
     NumDomSet.lift2 (fun x y => x - y) a.stack b.num,
     NumDomSet.lift2 (fun x y => x - y) a.packet b.num, a.fd,
     a.maps.map (fun s => NumDomSet.lift2 (fun x y => x - y) s b.num), a.packet_end⟩
  else
    match a.regionList, b.regionList with
    | [(r1, s1)], [(r2, s2)] =>
      if r1 == r2 then
        { botRCP a.maps.length with num := NumDomSet.lift2 (fun x y => x - y) s1 s2 }
      else numtopM a.maps.length
    | _, _ => numtopM a.maps.length

/-- Modelled from the spec: non-MOV/ADD/SUB binary operations project
through the num component; the result is num-TOP unless both operands are
definitely numbers. -/
def execOp (a : RCP_domain) (op : BinOp) (b : RCP_domain) : RCP_domain :=
  if a.must_be_num && b.must_be_num then
    { botRCP a.maps.length with num := NumDomSet.arith op a.num b.num }
  else numtopM a.maps.length

/-- Modelled from the spec: restriction of a value to the regions of a
type set (step (a) of assume); the packet_end sentinel is governed by the
packet bit. -/
def restrict (a : RCP_domain) (t : Types) : RCP_domain :=
  ⟨if t.num then a.num else NumDomSet.bot,
   if t.ctx then a.ctx else NumDomSet.bot,
   if t.stack then a.stack else NumDomSet.bot,
   if t.packet then a.packet else NumDomSet.bot,
   if t.fd then a.fd else NumDomSet.bot,
   a.maps.mapIdx (fun i s => if t.maps.getD i false then s else NumDomSet.bot),
   a.packet_end && t.packet⟩

/-- Modelled from the spec: the per-region step of assume: a region
present only on the left is contradictory for every operator but EQ and is
eliminated; two present regions are sharpened by the region-local
assume. -/
def compAssume (op : CondOp) (l r : NumDomSet) : NumDomSet :=
  if l.is_bot then l
  else if r.is_bot then (if op == CondOp.EQ then l else NumDomSet.bot)
  else l.setAssume op r

/-- Modelled from the spec: assume(left, op, right, when_types): restrict
the left side to when_types, then sharpen every region against the
right-hand side. -/
def assumeOp (left : RCP_domain) (op : CondOp) (right : RCP_domain) (when : Types) :
    RCP_domain :=
  let l := left.restrict when
  ⟨compAssume op l.num right.num, compAssume op l.ctx right.ctx,
   compAssume op l.stack right.stack, compAssume op l.packet right.packet,
   compAssume op l.fd right.fd, List.zipWith (compAssume op) l.maps right.maps,
   l.packet_end && (right.packet_end || op == CondOp.EQ)⟩

/-- Modelled from the spec: the unconditional type-constraint assume
restricts the value to the allowed regions. -/
def assumeType (r : RCP_domain) (t : Types) : RCP_domain := r.restrict t

/-- Modelled from the spec: the guarded type-constraint assume restricts
the value when the given register may inhabit the given types. -/
def assumeTypeWhen (r : RCP_domain) (t : Types) (given : RCP_domain) (gt : Types) :
    RCP_domain :=
  if (given.restrict gt).is_bot then r else r.restrict t

/-- Modelled from the spec: map_lookup_elem expects an fd singleton and
returns the union of the value pointer of that map at offset 0 and the
number 0 (the null result); outside that contract the result is the
unknown number. -/
def map_lookup_elem (r : RCP_domain) (defs : List MapDef) : RCP_domain :=
  let M := defs.length
  match r.fd.top, r.fd.elems with
  | false, [m] =>
    if 0 ≤ m && m < (M : Int) then
      ⟨NumDomSet.single 0, NumDomSet.bot, NumDomSet.bot, NumDomSet.bot, NumDomSet.bot,
       (List.replicate M NumDomSet.bot).set m.toNat (NumDomSet.single 0), false⟩
    else numtopM M
  | _, _ => numtopM M

end RCP_domain

/-- Embeds MinSizeDom (ai.cpp): a lower bound on the validated packet
prefix, initialized to the 0xFFFFFFF sentinel. -/
structure MinSizeDom where
  size : Int
deriving DecidableEq

namespace MinSizeDom

/-- The default-constructed MinSizeDom. -/
def init : MinSizeDom := ⟨0xFFFFFFF⟩

/-- Embeds MinSizeDom::operator|= : join takes the minimum. -/
def joinMS (a b : MinSizeDom) : MinSizeDom := ⟨min a.size b.size⟩

/-- Embeds MinSizeDom::operator&= : meet takes the maximum. -/
def meetMS (a b : MinSizeDom) : MinSizeDom := ⟨max a.size b.size⟩

/-- Embeds MinSizeDom::havoc. -/
def havocMS : MinSizeDom := ⟨0⟩

/-- Embeds MinSizeDom::assume_larger_than (ai.cpp): returns on BOT; on TOP
the source stores the sentinel and then still dereferences min_element of
the empty element vector, which is undefined behaviour, modelled as
none. -/
def assume_larger_than (d : MinSizeDom) (ub : OffsetDomSet) : Option MinSizeDom :=
  if ub.is_bot then some d
  else
    let d1 : MinSizeDom := if ub.is_top then ⟨0xFFFFFFF⟩ else d
    match ub.elems.min? with
    | none => none
    | some m => some ⟨max d1.size m⟩

/-- Embeds MinSizeDom::in_bounds (ai.cpp); on TOP the max_element
dereference is reached only when elements exist. -/
def in_bounds (d : MinSizeDom) (ub : OffsetDomSet) : Option Bool :=
  if ub.is_bot then some true
  else if ub.is_top then some false
  else
    match ub.elems.max? with
    | none => none
    | some m => some (d.size ≥ m)

end MinSizeDom

/-- Modelled from the spec: MemDom (ai_dom_mem.hpp is not among the source
files): a sparse store keyed by concrete (offset, width) pairs holding RCP
values, with an explicit bot flag; the cell list is kept sorted by key so
that equal stores are equal lists. -/
structure MemDom where
  bot : Bool
  cells : List ((Int × Int) × RCP_domain)
deriving DecidableEq

namespace MemDom

/-- The default-constructed MemDom of a fresh Machine: bottom. -/
def initBot : MemDom := ⟨true, []⟩

/-- Strict key order on (offset, width) cells. -/
def keyLt (k1 k2 : Int × Int) : Bool := k1.1 < k2.1 || (k1.1 == k2.1 && k1.2 < k2.2)

/-- Byte-range overlap of a target access (o, w) and a cell (co, cw). -/
def overlapsB (o w co cw : Int) : Bool := co < o + w && o < co + cw

/-- A cell (co, cw) fully inside the target range (o, w). -/
def fullyInsideB (co cw o w : Int) : Bool := o ≤ co && co + cw ≤ o + w

/-- Sorted insertion of a cell (no equal key may remain in the list). -/
def insertCell (k : Int × Int) (v : RCP_domain) :
    List ((Int × Int) × RCP_domain) → List ((Int × Int) × RCP_domain)
  | [] => [(k, v)]
  | c :: t => if keyLt k c.1 then (k, v) :: c :: t else c :: insertCell k v t

/-- Fuelled worker of the key-merging of two sorted cell lists; the fuel
is an upper bound on the joint length and only makes the recursion
structural. -/
def mergeCellsAux (f : RCP_domain → RCP_domain → RCP_domain) :
    Nat → List ((Int × Int) × RCP_domain) → List ((Int × Int) × RCP_domain) →
    List ((Int × Int) × RCP_domain)
  | 0, xs, ys => xs ++ ys
  | _ + 1, [], ys => ys
  | _ + 1, xs, [] => xs
  | n + 1, x :: xs, y :: ys =>
    if keyLt x.1 y.1 then x :: mergeCellsAux f n xs (y :: ys)
    else if keyLt y.1 x.1 then y :: mergeCellsAux f n (x :: xs) ys
    else (x.1, f x.2 y.2) :: mergeCellsAux f n xs ys

/-- Key-merging of two sorted cell lists, combining values on equal keys;
a key present on one side only keeps its value (the absent side reads as
bottom and the combination is a join). -/
def mergeCells (f : RCP_domain → RCP_domain → RCP_domain)
    (xs ys : List ((Int × Int) × RCP_domain)) : List ((Int × Int) × RCP_domain) :=
  mergeCellsAux f (xs.length + ys.length) xs ys

/-- Fuelled worker of the key-intersecting merge. -/
def interCellsAux (f : RCP_domain → RCP_domain → RCP_domain) :
    Nat → List ((Int × Int) × RCP_domain) → List ((Int × Int) × RCP_domain) →
    List ((Int × Int) × RCP_domain)
  | 0, _, _ => []
  | _ + 1, [], _ => []
  | _ + 1, _, [] => []
  | n + 1, x :: xs, y :: ys =>
    if keyLt x.1 y.1 then interCellsAux f n xs (y :: ys)
    else if keyLt y.1 x.1 then interCellsAux f n (x :: xs) ys
    else (x.1, f x.2 y.2) :: interCellsAux f n xs ys

/-- Key-intersecting merge for the meet. -/
def interCells (f : RCP_domain → RCP_domain → RCP_domain)
    (xs ys : List ((Int × Int) × RCP_domain)) : List ((Int × Int) × RCP_domain) :=
  interCellsAux f (xs.length + ys.length) xs ys

/-- Modelled from the spec: MemDom join; a bottom side is absorbed. -/
def joinMem (a b : MemDom) : MemDom :=
  if a.bot then b
  else if b.bot then a
  else ⟨false, mergeCells RCP_domain.joinR a.cells b.cells⟩

/-- Modelled from the spec: MemDom meet; bottom absorbs. -/
def meetMem (a b : MemDom) : MemDom :=
  if a.bot || b.bot then ⟨true, []⟩
  else ⟨false, interCells RCP_domain.meetR a.cells b.cells⟩

/-- Modelled from the spec: store with a concrete width: on a singleton
offset, cells fully inside the written range are overwritten and partially
overlapping cells are weakly updated; on a non-singleton (or TOP) offset
set every possibly-overlapping cell is weakly updated. -/
def store (m : MemDom) (offs : OffsetDomSet) (w : Int) (v : RCP_domain) : MemDom :=
  if offs.is_single then
    let o := offs.elems.headD 0
    let kept := m.cells.filterMap (fun c =>
      if fullyInsideB c.1.1 c.1.2 o w then none
      else if overlapsB o w c.1.1 c.1.2 then some (c.1, c.2.joinR v)
      else some c)
    ⟨m.bot, insertCell (o, w) v kept⟩
  else
    ⟨m.bot, m.cells.map (fun c =>
      if offs.top || offs.elems.any (fun o => overlapsB o w c.1.1 c.1.2)
      then (c.1, c.2.joinR v) else c)⟩

/-- Modelled from the spec: store_dynamic weakly updates every cell that
intersects any (offset, width) combination; a TOP offset or width set
touches the whole store. -/
def store_dynamic (m : MemDom) (offs : OffsetDomSet) (widths : NumDomSet) (v : RCP_domain) :
    MemDom :=
  ⟨m.bot, m.cells.map (fun c =>
    if offs.top || widths.top
        || offs.elems.any (fun o => widths.elems.any (fun w => overlapsB o w c.1.1 c.1.2))
    then (c.1, c.2.joinR v) else c)⟩

/-- Modelled from the spec: load at one concrete offset: an exact cell
returns its value, an ambiguous partial overlap num-TOP, and a miss
bottom. -/
def load1 (M : Nat) (m : MemDom) (o w : Int) : RCP_domain :=
  match m.cells.find? (fun c => c.1 == (o, w)) with
  | some c => c.2
  | none =>
    if m.cells.any (fun c => overlapsB o w c.1.1 c.1.2) then RCP_domain.numtopM M
    else RCP_domain.botRCP M

/-- Modelled from the spec: load over an offset set joins the candidate
reads; a TOP offset reads as the unknown number. -/
def load (M : Nat) (m : MemDom) (offs : OffsetDomSet) (w : Int) : RCP_domain :=
  if offs.top then RCP_domain.numtopM M
  else offs.elems.foldl (fun acc o => acc.joinR (load1 M m o w)) (RCP_domain.botRCP M)

end MemDom

/-- Embeds RegsDom (ai.cpp): 16 optional RCP slots; a register is absent
exactly when it is uninitialized. -/
structure RegsDom where
  regs : List (Option RCP_domain)
deriving DecidableEq

namespace RegsDom

/-- Embeds the RegsDom default constructor: every slot present and holding
the default (bottom) RCP value over M maps. -/
def mkDefault (M : Nat) : RegsDom := ⟨List.replicate 16 (some (RCP_domain.botRCP M))⟩

/-- Embeds RegsDom::init: clear every slot, then r1 = ctx, r10 = stack
end, r13/r14 (data_end and meta bookkeeping) = unknown number. -/
def init (ctx stack_end top_num : RCP_domain) : RegsDom :=
  ⟨(List.range 16).map (fun i =>
    if i == 1 then some ctx
    else if i == 10 then some stack_end
    else if i == 13 || i == 14 then some top_num
    else none)⟩

/-- Embeds RegsDom::is_bot: some slot among r0..r9 is present and
bottom. -/
def is_bot (d : RegsDom) : Bool :=
  (List.range 10).any (fun i =>
    match d.regs.getD i none with
    | some v => v.is_bot
    | none => false)

/-- Embeds RegsDom::operator|= : slotwise; a slot absent on either side is
absent in the result. -/
def joinRegs (a b : RegsDom) : RegsDom :=
  ⟨List.zipWith (fun x y =>
    match x, y with
    | some u, some v => some (u.joinR v)
    | _, _ => none) a.regs b.regs⟩

/-- Embeds RegsDom::operator&= : slotwise, with the same absence rule. -/
def meetRegs (a b : RegsDom) : RegsDom :=
  ⟨List.zipWith (fun x y =>
    match x, y with
    | some u, some v => some (u.meetR v)
    | _, _ => none) a.regs b.regs⟩

/-- Embeds RegsDom::scratch_regs: r1..r5 become absent. -/
def scratch_regs (d : RegsDom) : RegsDom :=
  ⟨[1, 2, 3, 4, 5].foldl (fun l i => l.set i none) d.regs⟩

/-- Embeds RegsDom::assign. -/
def assign (d : RegsDom) (r : Nat) (v : RCP_domain) : RegsDom := ⟨d.regs.set r (some v)⟩

/-- Embeds RegsDom::at: reading an absent slot throws the uninitialized
register failure carrying the register index. -/
def atReg (d : RegsDom) (r : Nat) : Except VError RCP_domain :=
  match d.regs.getD r none with
  | none => .error (.uninitReg r)
  | some v => .ok v

/-- Embeds RegsDom::to_uninit. -/
def to_uninit (d : RegsDom) (r : Nat) : RegsDom := ⟨d.regs.set r none⟩

end RegsDom

/-- Embeds Machine (ai.cpp): the product domain RegsDom times MemDom times
MinSizeDom.  The program_info member never changes and is passed as a
parameter; Machine::operator== compares exactly these three components. -/
structure Machine where
  regs : RegsDom
  stack_arr : MemDom
  data_end : MinSizeDom
deriving DecidableEq

namespace Machine

/-- The Machine produced by the Machine(program_info) constructor before
init() is called: default registers, bottom stack, sentinel min-size. -/
def mk0 (M : Nat) : Machine := ⟨RegsDom.mkDefault M, MemDom.initBot, MinSizeDom.init⟩

/-- Embeds Machine::init: seed the register file from BOT.with_ctx(0),
BOT.with_stack(STACK_SIZE) and numtop, and clear the stack bottom flag. -/
def initM (info : program_info) : Machine :=
  let M := info.map_defs.length
  ⟨RegsDom.init ((RCP_domain.botRCP M).with_ctx 0)
      ((RCP_domain.botRCP M).with_stack STACK_SIZE) (RCP_domain.numtopM M),
   ⟨false, []⟩, MinSizeDom.init⟩

/-- Embeds Machine::is_bot. -/
def is_bot (m : Machine) : Bool := m.regs.is_bot || m.stack_arr.bot

/-- Embeds Machine::eval(uint64_t). -/
def evalImm (M : Nat) (v : Int) : RCP_domain := (RCP_domain.botRCP M).with_num v

/-- Embeds Machine::eval(Value): an immediate becomes a number singleton,
a register is read through RegsDom::at. -/
def evalV (info : program_info) (m : Machine) : Value → Except VError RCP_domain
  | .Imm v => .ok (evalImm info.map_defs.length v)
  | .Reg r => m.regs.atReg r

/-- Embeds Machine::operator|= : componentwise join. -/
def joinMach (a b : Machine) : Machine :=
  ⟨a.regs.joinRegs b.regs, a.stack_arr.joinMem b.stack_arr, a.data_end.joinMS b.data_end⟩

/-- Embeds Machine::operator&= : componentwise meet. -/
def meetMach (a b : Machine) : Machine :=
  ⟨a.regs.meetRegs b.regs, a.stack_arr.meetMem b.stack_arr, a.data_end.meetMS b.data_end⟩

/-- The lattice order induced by the join: a is below b when joining b
onto a gives b. -/
def leMach (a b : Machine) : Prop := a.joinMach b = b

instance (a b : Machine) : Decidable (leMach a b) := by
  unfold leMach; infer_instance

/-- Embeds Machine::store: only the stack component of the address is
written; a pointer that may be something else besides stack makes the
update extremely weak by widening the target offsets to TOP; a
non-singleton width goes through store_dynamic. -/
def storeMach (m : Machine) (addr : RCP_domain) (width : NumDomSet) (value : RCP_domain) :
    Machine :=
  let as_stack := addr.stack
  if as_stack.is_bot then m
  else
    if (addr.with_stackSet NumDomSet.bot).is_bot then
      if !width.is_single then
        { m with stack_arr := m.stack_arr.store_dynamic as_stack width value }
      else
        { m with stack_arr := m.stack_arr.store as_stack (width.elems.headD 0) value }
    else
      if !width.is_single then
        { m with stack_arr := m.stack_arr.store_dynamic NumDomSet.topSet width value }
      else
        { m with stack_arr := m.stack_arr.store NumDomSet.topSet (width.elems.headD 0) value }

/-- Embeds Machine::load_stack. -/
def load_stack (M : Nat) (m : Machine) (as_stack : OffsetDomSet) (width : Int) :
    RCP_domain :=
  if !as_stack.is_bot then
    (RCP_domain.botRCP M).joinR (m.stack_arr.load M as_stack width)
  else RCP_domain.botRCP M

/-- Embeds Machine::load_ctx: a singleton offset matching the descriptor's
data field yields the packet pointer at the sentinel offset 3, the end
field yields packet_end, the meta field yields data_start plus a packet
pointer at 0, and any other singleton the unknown number; a non-singleton
(non-bottom) offset havocs the result. -/
def load_ctx (info : program_info) (as_ctx : OffsetDomSet) (width : Int) : RCP_domain :=
  let M := info.map_defs.length
  if as_ctx.is_bot then RCP_domain.botRCP M
  else
    let r := RCP_domain.botRCP M
    if as_ctx.is_single then
      let d := info.descriptor
      let data_start := (RCP_domain.botRCP M).with_packet 3
      if d.data > -1 && as_ctx.containsV d.data then r.joinR data_start
      else if d.endF > -1 && as_ctx.containsV d.endF then
        r.joinR ((RCP_domain.botRCP M).with_packet_end)
      else if d.meta > -1 && as_ctx.containsV d.meta then
        r.joinR (data_start.addRCP ((RCP_domain.botRCP M).with_packet 0))
      else r.joinR (RCP_domain.numtopM M)
    else r.havocR

/-- Embeds Machine::load_other: an address that may be packet or map reads
as the unknown number, otherwise contributes nothing. -/
def load_other (M : Nat) (addr : RCP_domain) : RCP_domain :=
  if addr.maybe_packet || addr.maybe_map then RCP_domain.numtopM M
  else RCP_domain.botRCP M

/-- Embeds Machine::load: the join of the stack, ctx and other reads. -/
def loadMach (info : program_info) (m : Machine) (addr : RCP_domain) (width : Int) :
    RCP_domain :=
  let M := info.map_defs.length
  ((m.load_stack M addr.stack width).joinR (load_ctx info addr.ctx width)).joinR
    (load_other M addr)

/-- Embeds the body of the ArgPair loop of Machine::operator()(Call): a
PTR_TO_MEM_OR_NULL argument that must be null is skipped; one that may be
non-null havocs the written value; all three kinds then store through the
pointer for the size's numeric set. -/
def callPair (info : program_info) (m : Machine) (arg : ArgPair) : Except VError Machine :=
  let M := info.map_defs.length
  let val := RCP_domain.numtopM M
  match arg.kind with
  | .PTR_TO_MEM_OR_NULL => do
    let mv ← m.regs.atReg arg.mem
    if mv.must_be_num then pure m
    else
      let val := if !mv.num.is_bot then val.havocR else val
      let sz ← m.regs.atReg arg.size
      pure (m.storeMach mv sz.num val)
  | .PTR_TO_MEM => do
    let mv ← m.regs.atReg arg.mem
    let sz ← m.regs.atReg arg.size
    pure (m.storeMach mv sz.num val)
  | .PTR_TO_UNINIT_MEM => do
    let mv ← m.regs.atReg arg.mem
    let sz ← m.regs.atReg arg.size
    pure (m.storeMach mv sz.num val)

/-- Embeds the Machine transfer functions (the operator() overloads of
ai.cpp) as one visitor.  Failures are analysis-time errors: reading an
absent register, the Undefined instruction, and source-level undefined
behaviour. -/
def visit (info : program_info) (ins : Instruction) (m : Machine) : Except VError Machine :=
  let M := info.map_defs.length
  match ins with
  | .Undefined => .error .undefinedInstr
  | .LoadMapFd dst mapfd =>
    .ok { m with regs := m.regs.assign dst ((RCP_domain.botRCP M).with_fd mapfd) }
  | .Un _ => .ok m
  | .Bin op dst v =>
    match op with
    | .MOV => do
      let rv ← m.evalV info v
      pure { m with regs := m.regs.assign dst rv }
    | .ADD => do
      let cur ← m.regs.atReg dst
      let rv ← m.evalV info v
      pure { m with regs := m.regs.assign dst (cur.addRCP rv) }
    | .SUB => do
      let cur ← m.regs.atReg dst
      let rv ← m.evalV info v
      pure { m with regs := m.regs.assign dst (cur.subRCP rv) }
    | _ => do
      let cur ← m.regs.atReg dst
      let rv ← m.evalV info v
      pure { m with regs := m.regs.assign dst (cur.execOp op rv) }
  | .Assume cond => do
    let rv ← m.evalV info cond.right
    if rv.is_packet_end then
      if cond.op == CondOp.LE then do
        let lv ← m.regs.atReg cond.left
        match m.data_end.assume_larger_than lv.packet with
        | none => .error .ub
        | some d => pure { m with data_end := d }
      else pure m
    else do
      let lv ← m.regs.atReg cond.left
      pure { m with regs :=
        m.regs.assign cond.left (RCP_domain.assumeOp lv cond.op rv (TypeSet.all M)) }
  | .Assert cst =>
    match cst with
    | .lin lc => do
      let lv ← m.regs.atReg lc.reg
      let vv ← m.evalV info lc.v
      let wv ← m.evalV info lc.width
      let ov := evalImm M lc.offset
      let right := lv.zeroRCP.addRCP ((vv.subRCP wv).subRCP ov)
      pure { m with regs :=
        m.regs.assign lc.reg (RCP_domain.assumeOp lv lc.op right lc.when_types) }
    | .tc c => do
      let r ← m.regs.atReg c.thenC.reg
      match c.given with
      | some g => do
        let gv ← m.regs.atReg g.reg
        pure { m with regs :=
          m.regs.assign c.thenC.reg (RCP_domain.assumeTypeWhen r c.thenC.types gv g.types) }
      | none =>
        pure { m with regs :=
          m.regs.assign c.thenC.reg (RCP_domain.assumeType r c.thenC.types) }
    | .inPacket ip => do
      let rv ← m.regs.atReg ip.reg
      let ov := evalImm M ip.offset
      let wv ← m.evalV info ip.width
      let ub := ((rv.addRCP ov).addRCP wv).packet
      match m.data_end.assume_larger_than ub with
      | none => .error .ub
      | some d => pure { m with data_end := d }
  | .Exit => .ok m
  | .Jmp _ => .ok m
  | .Call _ pairs returns_map => do
    let m1 ← pairs.foldlM (fun mm arg => callPair info mm arg) m
    let r0 ←
      if returns_map then do
        let r1 ← m1.regs.atReg 1
        pure (r1.map_lookup_elem info.map_defs)
      else pure (RCP_domain.numtopM M)
    pure { m1 with regs := (m1.regs.assign 0 r0).scratch_regs }
  | .Packet =>
    .ok { m with regs := (m.regs.assign 0 (RCP_domain.numtopM M)).scratch_regs }
  | .Mem access value is_load => do
    let base ← m.regs.atReg access.basereg
    let addr := base.addRCP (evalImm M access.offset)
    if is_load then
      match value with
      | .Reg r =>
        pure { m with regs := m.regs.assign r (m.loadMach info addr access.width) }
      | .Imm _ => .error .ub
    else do
      let v ← m.evalV info value
      pure (m.storeMach addr (NumDomSet.single access.width) v)
  | .LockAdd _ _ => .ok m

end Machine

namespace AssertionExtractor

/-- Embeds the type_indices vector built by the AssertionExtractor
constructor: one index per declared map, then ctx, stack, packet (T_DATA),
num and fd. -/
def type_indices (info : program_info) : List TypeIdx :=
  (List.range info.map_defs.length).map TypeIdx.mapIdx
    ++ [TypeIdx.ctx, TypeIdx.stack, TypeIdx.packet, TypeIdx.num, TypeIdx.fd]

/-- Embeds AssertionExtractor::type_of. -/
def type_of (r : Nat) (t : Types) : Assertion := .tc ⟨⟨r, t⟩, none⟩

/-- Embeds AssertionExtractor::check_access: a lower-bound linear
constraint for the whole type set, then per-type upper bounds: an InPacket
obligation for packet, value_size for each map, STACK_SIZE for stack and
the descriptor size for ctx; num contributes nothing. -/
def check_access (info : program_info) (t : Types) (reg : Nat) (offset : Int)
    (width : Value) : List Assertion :=
  let M := info.map_defs.length
  (Assertion.lin ⟨CondOp.GE, reg, offset, .Imm 0, .Imm 0, t⟩)
    :: (type_indices info).filterMap (fun i =>
      if !t.has i then none
      else
        match i with
        | .num => none
        | .packet => some (Assertion.inPacket ⟨reg, offset, width⟩)
        | .mapIdx j =>
          some (Assertion.lin ⟨CondOp.LE, reg, offset, width,
            .Imm ((info.map_defs.getD j ⟨0⟩).value_size), TypeSet.single M i⟩)
        | .stack =>
          some (Assertion.lin ⟨CondOp.LE, reg, offset, width, .Imm STACK_SIZE,
            TypeSet.single M i⟩)
        | .ctx =>
          some (Assertion.lin ⟨CondOp.LE, reg, offset, width,
            .Imm info.descriptor.size, TypeSet.single M i⟩)
        | .fd => none)

/-- Embeds the ArgSingle loop of AssertionExtractor::operator()(Call). -/
def singleAsserts (M : Nat) (is_priviledged : Bool) (arg : ArgSingle) : List Assertion :=
  match arg.kind with
  | .ANYTHING => if !is_priviledged then [type_of arg.reg (TypeSet.num M)] else []
  | .MAP_FD => [type_of arg.reg (TypeSet.fd M)]
  | .PTR_TO_MAP_KEY =>
    [type_of arg.reg (TypeSet.unionT (TypeSet.stack M) (TypeSet.packet M))]
  | .PTR_TO_MAP_VALUE =>
    [type_of arg.reg (TypeSet.unionT (TypeSet.stack M) (TypeSet.packet M))]
  | .PTR_TO_CTX => [type_of arg.reg (TypeSet.ctx M)]

/-- Embeds the ArgPair loop of AssertionExtractor::operator()(Call).  The
loop body ends in an unconditional break, so only the first pair is
processed; the recursion mirrors that by ignoring the tail. -/
def pairAsserts (info : program_info) : List ArgPair → List Assertion
  | [] => []
  | arg :: _ =>
    let M := info.map_defs.length
    (match arg.kind with
      | .PTR_TO_MEM_OR_NULL =>
        [type_of arg.mem (TypeSet.unionT (TypeSet.mem M) (TypeSet.num M)),
         .lin ⟨CondOp.EQ, arg.mem, 0, .Imm 0, .Imm 0, TypeSet.num M⟩]
      | .PTR_TO_MEM => [type_of arg.mem (TypeSet.mem M)]
      | .PTR_TO_UNINIT_MEM => [type_of arg.mem (TypeSet.mem M)])
    ++ (let op := if arg.can_be_zero then CondOp.GE else CondOp.GT
        [type_of arg.size (TypeSet.num M),
         .lin ⟨op, arg.size, 0, .Imm 0, .Imm 0, TypeSet.num M⟩])
    ++ check_access info (TypeSet.mem M) arg.mem 0 (.Reg arg.size)

/-- Embeds AssertionExtractor::operator()(Call): the single-argument
constraints followed by the (first-pair-only) pair constraints. -/
def callAsserts (info : program_info) (is_priviledged : Bool) (singles : List ArgSingle)
    (pairs : List ArgPair) : List Assertion :=
  (singles.map (singleAsserts info.map_defs.length is_priviledged)).flatten
    ++ pairAsserts info pairs

end AssertionExtractor

/-- Modelled from the spec: a basic block of the CFG with its ordered
instructions and predecessor/successor label lists. -/
structure BasicBlock where
  insts : List Instruction
  prevlist : List Nat
  nextlist : List Nat

/-- Modelled from the spec: a labelled CFG; labels lists the keys with the
entry label first, and blocks maps each label to its block. -/
structure Cfg where
  labels : List Nat
  blocks : Nat → BasicBlock

/-- Pointwise update of a label-indexed map, as insert_or_assign on the
unordered_map members of Analyzer. -/
def updFun (f : Nat → Machine) (l : Nat) (v : Machine) : Nat → Machine :=
  fun x => if x == l then v else f x

/-- Embeds Analyzer (ai.cpp): the pre and post Machine of every label. -/
structure Analyzer where
  pre : Nat → Machine
  post : Nat → Machine

namespace Analyzer

/-- Embeds the Analyzer constructor: every label starts from the
default-constructed Machine and pre of the entry label is initialized. -/
def initA (cfg : Cfg) (info : program_info) : Analyzer :=
  let M := info.map_defs.length
  let entry := cfg.labels.headD 0
  ⟨fun l => if l == entry then Machine.initM info else Machine.mk0 M,
   fun _ => Machine.mk0 M⟩

/-- Embeds Analyzer::join: fold the posts of the predecessors into the pre
of the target label. -/
def joinInto (a : Analyzer) (prevs : List Nat) (into : Nat) : Analyzer :=
  let new_pre := prevs.foldl (fun acc p => acc.joinMach (a.post p)) (a.pre into)
  { a with pre := updFun a.pre into new_pre }

/-- Embeds Analyzer::recompute: run every instruction of the block on a
copy of the label's pre Machine, report whether the stored post changed,
and store the new post. -/
def recompute (info : program_info) (a : Analyzer) (l : Nat) (bb : BasicBlock) :
    Except VError (Analyzer × Bool) := do
  let dom ← bb.insts.foldlM (fun m i => Machine.visit info i m) (a.pre l)
  pure ({ a with post := updFun a.post l dom }, decide (a.post l ≠ dom))

end Analyzer

/-- State of the worklist loop: the FIFO list, the per-label counter map
(default 0 for every key) and the analyzer. -/
structure WLState where
  w : List Nat
  count : Nat → Nat
  analyzer : Analyzer

/-- Embeds the std::unique/erase call of the worklist: removes consecutive
duplicate labels. -/
def dedupConsec : List Nat → List Nat
  | [] => []
  | [a] => [a]
  | a :: b :: t => if a == b then dedupConsec (b :: t) else a :: dedupConsec (b :: t)

/-- Bumps one entry of a label-indexed counter. -/
def bump (f : Nat → Nat) (l : Nat) : Nat → Nat := fun x => if x == l then f l + 1 else f x

/-- Embeds the successor loop of the worklist: increment count of every
successor in order and push those whose counter reaches the number of
their predecessors. -/
def pushSuccs (cfg : Cfg) (nexts : List Nat) (cw : (Nat → Nat) × List Nat) :
    (Nat → Nat) × List Nat :=
  nexts.foldl (fun cw next =>
    let c := bump cw.1 next
    if c next ≥ (cfg.blocks next).prevlist.length then (c, cw.2 ++ [next]) else (c, cw.2)) cw

/-- Embeds one iteration of the worklist loop of ai.cpp: pop the front
label, join the predecessors, recompute, and on a change push the ready
successors and deduplicate consecutive labels; none signals an empty
worklist. -/
def wlStep (cfg : Cfg) (info : program_info) (s : WLState) :
    Except VError (Option WLState) :=
  match s.w with
  | [] => .ok none
  | label :: rest => do
    let bb := cfg.blocks label
    let a1 := s.analyzer.joinInto bb.prevlist label
    let r ← a1.recompute info label bb
    if r.2 then
      let cw := pushSuccs cfg bb.nextlist (s.count, rest)
      pure (some ⟨dedupConsec cw.2, cw.1, r.1⟩)
    else
      pure (some ⟨rest, s.count, r.1⟩)

/-- Embeds the worklist initialization: the FIFO holds the entry label and
every counter is zero. -/
def wlInit (cfg : Cfg) (info : program_info) : WLState :=
  ⟨[cfg.labels.headD 0], fun _ => 0, Analyzer.initA cfg info⟩

/-- Runs the worklist loop for at most the given number of iterations;
once the list is empty the state is stable. -/
def wlRun (cfg : Cfg) (info : program_info) : Nat → WLState → Except VError WLState
  | 0, s => .ok s
  | n + 1, s =>
    match wlStep cfg info s with
    | .error e => .error e
    | .ok none => .ok s
    | .ok (some s2) => wlRun cfg info n s2

/-- The worklist loop has finished: the FIFO is empty, or a fatal analysis
error escaped the loop. -/
def WLdone : Except VError WLState → Prop
  | .ok s => s.w = []
  | .error _ => True

/-- Ghost-instrumented worklist state: the concrete state plus per-label
pop, changed-pop and push counters used by the termination argument. -/
structure GWState where
  base : WLState
  pops : Nat → Nat
  chpops : Nat → Nat
  pushes : Nat → Nat

/-- Accumulator of the instrumented successor loop. -/
structure PushAcc where
  count : Nat → Nat
  w : List Nat
  pushes : Nat → Nat

/-- One instrumented successor-loop step. -/
def gPushStep (cfg : Cfg) (acc : PushAcc) (next : Nat) : PushAcc :=
  let c := bump acc.count next
  if c next ≥ (cfg.blocks next).prevlist.length then ⟨c, acc.w ++ [next], bump acc.pushes next⟩
  else ⟨c, acc.w, acc.pushes⟩

/-- Instrumented successor loop. -/
def gPushSuccs (cfg : Cfg) (nexts : List Nat) (acc : PushAcc) : PushAcc :=
  nexts.foldl (gPushStep cfg) acc

/-- Instrumented worklist iteration; identical to wlStep on the base state
and additionally counts pops, changed pops and pushes. -/
def gStep (cfg : Cfg) (info : program_info) (g : GWState) :
    Except VError (Option GWState) :=
  match g.base.w with
  | [] => .ok none
  | label :: rest => do
    let bb := cfg.blocks label
    let a1 := g.base.analyzer.joinInto bb.prevlist label
    let r ← a1.recompute info label bb
    let pops2 := bump g.pops label
    if r.2 then
      let acc := gPushSuccs cfg bb.nextlist ⟨g.base.count, rest, g.pushes⟩
      pure (some ⟨⟨dedupConsec acc.w, acc.count, r.1⟩, pops2, bump g.chpops label, acc.pushes⟩)
    else
      pure (some ⟨⟨rest, g.base.count, r.1⟩, pops2, g.chpops, g.pushes⟩)

/-- Instrumented run. -/
def gRun (cfg : Cfg) (info : program_info) : Nat → GWState → Except VError GWState
  | 0, g => .ok g
  | n + 1, g =>
    match gStep cfg info g with
    | .error e => .error e
    | .ok none => .ok g
    | .ok (some g2) => gRun cfg info n g2

/-- Instrumented initial state. -/
def gInit (cfg : Cfg) (info : program_info) : GWState :=
  ⟨wlInit cfg info, fun _ => 0, fun _ => 0, fun _ => 0⟩

/-- Occurrence count of a label at the worklist entry: the entry label
starts once on the list, every other label zero times. -/
def initOcc (entry l : Nat) : Nat := if l == entry then 1 else 0

/-- Upper bound on the pops of a label, defined by fuel over the
topological rank: a label can be popped once per initial occurrence plus
once per push, and pushes are bounded by the pops of the predecessors. -/
def Bfuel (cfg : Cfg) (entry : Nat) : Nat → Nat → Nat
  | 0, l => initOcc entry l
  | n + 1, l => initOcc entry l + ((cfg.blocks l).prevlist.map (Bfuel cfg entry n)).sum

/-- Instructions whose transfer function writes or refines register r10:
an assignment with destination r10, a load into r10, or an in-place
assume on r10.  Well-formed eBPF programs contain none of these (the
frame pointer is read-only at the bytecode level). -/
def writesR10 : Instruction → Bool
  | .LoadMapFd dst _ => dst == 10
  | .Bin _ dst _ => dst == 10
  | .Assume cond => cond.left == 10
  | .Assert (.lin lc) => lc.reg == 10
  | .Assert (.tc c) => c.thenC.reg == 10
  | .Mem _ (.Reg r) true => r == 10
  | _ => false

/-- Sum of a label-indexed quantity over a list of labels. -/
def sumOver (labels : List Nat) (f : Nat → Nat) : Nat := (labels.map f).sum

/-- The counting invariant of the instrumented worklist: popped labels are
accounted for by the initial occurrence and the pushes, pushes are bounded
by the counters, the counters record the successor occurrences of the
changed pops, changed pops are pops, and the FIFO only holds CFG
labels. -/
def WInv (cfg : Cfg) (entry : Nat) (g : GWState) : Prop :=
  (∀ l, g.pops l + List.count l g.base.w ≤ initOcc entry l + g.pushes l)
  ∧ (∀ l, g.pushes l ≤ g.base.count l)
  ∧ (∀ l, g.base.count l =
      sumOver cfg.labels (fun p => List.count l (cfg.blocks p).nextlist * g.chpops p))
  ∧ (∀ l, g.chpops l ≤ g.pops l)
  ∧ (∀ l ∈ g.base.w, l ∈ cfg.labels)

/-- A program_info with no maps and an absent-field descriptor, used by
the concrete evaluations. -/
def infoNoMaps : program_info := ⟨[], ⟨-1, -1, -1, 0⟩⟩

/-- A program_info whose context descriptor exposes data, end and meta
fields at offsets 0, 8 and 16 with size 24. -/
def infoCtx : program_info := ⟨[], ⟨0, 8, 16, 24⟩⟩

/-- A register file for the monotonicity evaluation: r1 holds the number
zero, r2 holds packet_end, the data_end lower bound is 0. -/
def mMono1 : Machine :=
  ⟨⟨(List.range 16).map (fun i =>
      if i == 1 then some ((RCP_domain.botRCP 0).with_num 0)
      else if i == 2 then some ((RCP_domain.botRCP 0).with_packet_end)
      else none)⟩,
   ⟨false, []⟩, ⟨0⟩⟩

/-- The same state with r1 additionally holding packet offset 5; mMono1 is
below mMono2 in the lattice order. -/
def mMono2 : Machine :=
  ⟨⟨(List.range 16).map (fun i =>
      if i == 1 then some (((RCP_domain.botRCP 0).with_num 0).with_packet 5)
      else if i == 2 then some ((RCP_domain.botRCP 0).with_packet_end)
      else none)⟩,
   ⟨false, []⟩, ⟨0⟩⟩

/-- The assume instruction r1 less-or-equal r2 with r2 = packet_end. -/
def insMono : Instruction := .Assume ⟨CondOp.LE, 1, .Reg 2⟩

/-- A machine whose stack holds the number 5 at offset 504 width 8 and
whose r1 is a stack pointer to that cell. -/
def mLock : Machine :=
  ⟨⟨(List.range 16).map (fun i =>
      if i == 1 then some ((RCP_domain.botRCP 0).with_stack 504)
      else none)⟩,
   ⟨false, [((504, 8), (RCP_domain.botRCP 0).with_num 5)]⟩, MinSizeDom.init⟩

/-- A LockAdd through r1 at offset 0 width 8. -/
def insLock : Instruction := .LockAdd ⟨1, 0, 8⟩ (.Reg 3)

/-- A machine with an uninitialized r3, for the error evaluation. -/
def mUninit : Machine :=
  ⟨⟨(List.range 16).map (fun i =>
      if i == 0 then some ((RCP_domain.botRCP 0).with_num 0) else none)⟩,
   ⟨false, []⟩, MinSizeDom.init⟩

/-- A machine for the packet_end assume evaluation: r1 holds packet
offsets 7 and 9, r2 holds packet_end. -/
def mAssumePkt : Machine :=
  ⟨⟨(List.range 16).map (fun i =>
      if i == 1 then some { RCP_domain.botRCP 0 with packet := ⟨false, [7, 9]⟩ }
      else if i == 2 then some ((RCP_domain.botRCP 0).with_packet_end)
      else none)⟩,
   ⟨false, []⟩, ⟨3⟩⟩

/-- Two helper-call pair arguments on distinct registers: the analysis of
the second one, were the pairs loop not cut short, would constrain
registers 6 and 7. -/
def pairFst : ArgPair := ⟨.PTR_TO_MEM, 2, 3, false⟩

/-- The second pair argument, never reached by the extractor. -/
def pairSnd : ArgPair := ⟨.PTR_TO_MEM, 6, 7, false⟩

/-- A two-block DAG CFG: the entry label 0 flows into the exit label 1;
both blocks are empty. -/
def cfgTwo : Cfg :=
  ⟨[0, 1], fun l => if l == 0 then ⟨[], [], [1]⟩ else ⟨[], [0], []⟩⟩

/-- Truncation is the identity on in-range values. -/
theorem wrap64_eq_self {x : Int} (h : inRange64 x) : wrap64 x = x := by
  obtain ⟨h1, h2⟩ := h
  unfold INT64_MIN at h1
  unfold INT64_MAX at h2
  unfold wrap64
  have hm : (x + 2 ^ 63) % 2 ^ 64 = x + 2 ^ 63 := by
    apply Int.emod_eq_of_lt <;> omega
  omega

/-- The overflow test of the checked operations agrees with the range
predicate. -/
theorem checkedOption (x : Int) :
    (if decide (x > INT64_MAX ∨ x < INT64_MIN) = true then (none : Option Int)
      else some (wrap64 x)) = if inRange64 x then some x else none := by
  by_cases h : inRange64 x
  · have hd : decide (x > INT64_MAX ∨ x < INT64_MIN) = false := by
      obtain ⟨h1, h2⟩ := h
      simp only [decide_eq_false_iff_not]
      omega
    rw [hd, if_pos h]
    simp [wrap64_eq_self h]
  · have hd : decide (x > INT64_MAX ∨ x < INT64_MIN) = true := by
      simp only [decide_eq_true_eq]
      unfold inRange64 at h
      omega
    rw [hd, if_neg h]
    simp

/-- Absolute value of the truncated quotient. -/
theorem natAbs_tdiv (a b : Int) : (Int.tdiv a b).natAbs = a.natAbs / b.natAbs := by
  rcases a with m | m <;> rcases b with n | n
  · rfl
  · show (-(Int.ofNat (m / (n + 1)))).natAbs = _
    rw [Int.natAbs_neg]
    rfl
  · show (-(Int.ofNat ((m + 1) / n))).natAbs = _
    rw [Int.natAbs_neg]
    rfl
  · rfl

/-- The truncated quotient of an in-range dividend by a nonzero divisor
stays in range except for INT64_MIN divided by minus one. -/
theorem tdiv_inRange (a b : Int) (ha : inRange64 a) (hb0 : b ≠ 0)
    (hc : ¬(a = INT64_MIN ∧ b = -1)) : inRange64 (Int.tdiv a b) := by
  have habs := natAbs_tdiv a b
  have hle : a.natAbs / b.natAbs ≤ a.natAbs := Nat.div_le_self _ _
  have hleA : (Int.tdiv a b).natAbs ≤ a.natAbs := by rw [habs]; exact hle
  obtain ⟨ha1, ha2⟩ := ha
  unfold INT64_MIN at ha1
  unfold INT64_MAX at ha2
  have haN : a.natAbs ≤ 2 ^ 63 := by
    rcases Int.natAbs_eq a with h | h <;> omega
  constructor
  · unfold INT64_MIN
    rcases Int.natAbs_eq (Int.tdiv a b) with h | h <;> omega
  · unfold INT64_MAX
    by_contra hgt
    push_neg at hgt
    have hxnn : (0 : Int) ≤ Int.tdiv a b := by omega
    have hcast : (((Int.tdiv a b).natAbs : Int)) = Int.tdiv a b := Int.natAbs_of_nonneg hxnn
    have hxge : 2 ^ 63 ≤ (Int.tdiv a b).natAbs := by omega
    have hEqa : a.natAbs = 2 ^ 63 := by omega
    have hapos : 0 < a.natAbs := by omega
    have hb1 : b.natAbs = 1 := by
      by_contra hbn
      have hb0n : b.natAbs ≠ 0 := fun h0 => hb0 (Int.natAbs_eq_zero.mp h0)
      have hb2 : 1 < b.natAbs := by omega
      have hdlt : a.natAbs / b.natAbs < a.natAbs := Nat.div_lt_self hapos hb2
      rw [← habs] at hdlt
      omega
    have hbv : b = 1 ∨ b = -1 := by
      rcases Int.natAbs_eq b with h | h <;> rw [hb1] at h <;> omega
    rcases hbv with h | h
    · subst h
      rw [Int.tdiv_one] at hgt
      omega
    · subst h
      apply hc
      refine ⟨?_, rfl⟩
      unfold INT64_MIN
      rcases Int.natAbs_eq a with h2 | h2 <;> omega

/-- C10: the safe_i64 operations +, -, * return the exact mathematical
result whenever it fits in int64_t and signal integer overflow (never a
wrapped value) otherwise; division by a nonzero divisor returns the exact
truncated quotient and overflows exactly for INT64_MIN divided by -1. -/
theorem C10_safe_i64_exact (a b : Int) (ha : inRange64 a) (hb : inRange64 b) :
    (crab.safe_add a b = if inRange64 (a + b) then some (a + b) else none)
    ∧ (crab.safe_sub a b = if inRange64 (a - b) then some (a - b) else none)
    ∧ (crab.safe_mul a b = if inRange64 (a * b) then some (a * b) else none)
    ∧ (b ≠ 0 →
        crab.safe_div a b =
          if a = INT64_MIN ∧ b = -1 then none else some (Int.tdiv a b)) := by
  refine ⟨?_, ?_, ?_, ?_⟩
  · simpa [crab.safe_add, crab.checked_add] using checkedOption (a + b)
  · simpa [crab.safe_sub, crab.checked_sub] using checkedOption (a - b)
  · simpa [crab.safe_mul, crab.checked_mul] using checkedOption (a * b)
  · intro hb0
    by_cases hc : a = INT64_MIN ∧ b = -1
    · obtain ⟨h1, h2⟩ := hc
      subst h1
      subst h2
      rfl
    · rw [if_neg hc]
      have hr := tdiv_inRange a b ha hb0 hc
      obtain ⟨hr1, hr2⟩ := hr
      have hflag : decide (Int.tdiv a b > INT64_MAX ∨ Int.tdiv a b < INT64_MIN) = false := by
        simp only [decide_eq_false_iff_not]
        push_neg
        exact ⟨hr2, hr1⟩
      unfold crab.safe_div crab.checked_div
      simp only [hflag]
      simp [wrap64_eq_self ⟨hr1, hr2⟩]

/-- Witness for C10 at concrete in-range inputs. -/
theorem C10_safe_i64_exact_witness :
    crab.safe_add 7 (-5) = some 2 ∧ crab.safe_div 7 (-2) = some (-3) := by
  have h := C10_safe_i64_exact 7 (-5) (by decide) (by decide)
  have h2 := C10_safe_i64_exact 7 (-2) (by decide) (by decide)
  refine ⟨?_, ?_⟩
  · rw [h.1]
    decide
  · rw [h2.2.2.2 (by decide)]
    decide

/-- Element access through two zipped lists at an in-bounds index. -/
theorem getD_zipWith_of_lt {α β γ : Type} (f : α → β → γ) (da : α) (db : β) (dc : γ) :
    ∀ (l1 : List α) (l2 : List β) (i : Nat), i < l1.length → i < l2.length →
      (List.zipWith f l1 l2).getD i dc = f (l1.getD i da) (l2.getD i db) := by
  intro l1
  induction l1 with
  | nil => intro l2 i h1 _; simp at h1
  | cons x xs ih =>
    intro l2 i h1 h2
    cases l2 with
    | nil => simp at h2
    | cons y ys =>
      cases i with
      | zero => rfl
      | succ n =>
        simp only [List.zipWith, List.getD_cons_succ]
        exact ih ys n (by simpa using h1) (by simpa using h2)

/-- C9: RegsDom join and meet are slotwise: a slot is absent in the result
exactly when it is absent in either operand, and otherwise holds the RCP
join (respectively meet) of the two slot values. -/
theorem C9_regsdom_join_meet_slotwise (a b : RegsDom) (i : Nat)
    (ha : i < a.regs.length) (hb : i < b.regs.length) :
    ((a.joinRegs b).regs.getD i none =
      match a.regs.getD i none, b.regs.getD i none with
      | some x, some y => some (x.joinR y)
      | _, _ => none)
    ∧ ((a.meetRegs b).regs.getD i none =
      match a.regs.getD i none, b.regs.getD i none with
      | some x, some y => some (x.meetR y)
      | _, _ => none) := by
  constructor
  · exact getD_zipWith_of_lt _ none none none a.regs b.regs i ha hb
  · exact getD_zipWith_of_lt _ none none none a.regs b.regs i ha hb

/-- Witness for C9 at slot 1 of two concrete register files. -/
theorem C9_regsdom_join_meet_slotwise_witness :
    ((mMono1.regs.joinRegs mMono2.regs).regs.getD 1 none =
      match mMono1.regs.regs.getD 1 none, mMono2.regs.regs.getD 1 none with
      | some x, some y => some (x.joinR y)
      | _, _ => none)
    ∧ ((mMono1.regs.meetRegs mMono2.regs).regs.getD 1 none =
      match mMono1.regs.regs.getD 1 none, mMono2.regs.regs.getD 1 none with
      | some x, some y => some (x.meetR y)
      | _, _ => none) :=
  C9_regsdom_join_meet_slotwise mMono1.regs mMono2.regs 1 (by decide) (by decide)

/-- C4 counterexample: the LockAdd transfer leaves the machine unchanged,
so the stack cell addressed through r1 still holds the number 5 and is
not havocked to the unknown number as the claim demands. -/
theorem C4_lockadd_counterexample :
    Machine.visit infoNoMaps insLock mLock = .ok mLock
    ∧ mLock.stack_arr.cells = [((504, 8), (RCP_domain.botRCP 0).with_num 5)]
    ∧ (RCP_domain.botRCP 0).with_num 5 ≠ RCP_domain.numtopM 0 :=
  ⟨rfl, rfl, by decide⟩

/-- C4 amended: the transfer function for LockAdd is the identity: the
source operator() body is empty, so no abstract memory cell is
havocked and no Machine component changes. -/
theorem C4_lockadd_noop (info : program_info) (a : Deref) (v : Value) (m : Machine) :
    Machine.visit info (.LockAdd a v) m = .ok m := rfl

/-- C1: a concrete non-monotonicity of the Assume transfer: mMono1 is
below mMono2 in the lattice order, yet after the instruction assume r1
less-or-equal packet_end the result from mMono1 is not below the result
from mMono2: the smaller input learns no data_end bound (its r1 carries no
packet offset) while the larger input raises data_end to 5. -/
theorem C1_transfer_not_monotone :
    Machine.leMach mMono1 mMono2
    ∧ Machine.visit infoNoMaps insMono mMono1 = .ok mMono1
    ∧ Machine.visit infoNoMaps insMono mMono2 =
        .ok ⟨mMono2.regs, mMono2.stack_arr, ⟨5⟩⟩
    ∧ ¬ Machine.leMach mMono1 ⟨mMono2.regs, mMono2.stack_arr, ⟨5⟩⟩ := by
  refine ⟨by decide, ?_, ?_, by decide⟩
  · rfl
  · rfl

/-- Replicated bottoms are all bottom. -/
theorem all_isbot_replicate (M : Nat) :
    (List.replicate M NumDomSet.bot).all NumDomSet.is_bot = true := by
  induction M with
  | zero => rfl
  | succ n ih =>
    rw [List.replicate_succ, List.all_cons, ih]
    rfl

/-- Joining bottom onto a singleton set gives the singleton. -/
theorem join_bot_single (k : Int) :
    NumDomSet.join NumDomSet.bot (NumDomSet.single k) = NumDomSet.single k := by
  simp [NumDomSet.join, NumDomSet.bot, NumDomSet.single, NumDomSet.KTHRESH,
    List.contains]

/-- Joining bottom onto bottom gives bottom. -/
theorem join_bot_bot : NumDomSet.join NumDomSet.bot NumDomSet.bot = NumDomSet.bot := by
  simp [NumDomSet.join, NumDomSet.bot, NumDomSet.KTHRESH]

/-- Joining bottom onto TOP gives TOP. -/
theorem join_bot_top : NumDomSet.join NumDomSet.bot NumDomSet.topSet = NumDomSet.topSet := by
  simp [NumDomSet.join, NumDomSet.bot, NumDomSet.topSet]

/-- Joining replicated bottoms is the identity. -/
theorem zipWith_join_replicate_bot (M : Nat) :
    List.zipWith NumDomSet.join (List.replicate M NumDomSet.bot)
      (List.replicate M NumDomSet.bot) = List.replicate M NumDomSet.bot := by
  induction M with
  | zero => rfl
  | succ n ih =>
    rw [List.replicate_succ, List.zipWith_cons_cons, ih, join_bot_bot]

/-- Joining the bottom RCP value onto a packet pointer is the identity. -/
theorem joinR_bot_packet (M : Nat) (k : Int) :
    (RCP_domain.botRCP M).joinR ((RCP_domain.botRCP M).with_packet k) =
      (RCP_domain.botRCP M).with_packet k := by
  simp [RCP_domain.joinR, RCP_domain.botRCP, RCP_domain.with_packet, join_bot_single,
    join_bot_bot, zipWith_join_replicate_bot]

/-- Joining the bottom RCP value onto packet_end is the identity. -/
theorem joinR_bot_packet_end (M : Nat) :
    (RCP_domain.botRCP M).joinR ((RCP_domain.botRCP M).with_packet_end) =
      (RCP_domain.botRCP M).with_packet_end := by
  simp [RCP_domain.joinR, RCP_domain.botRCP, RCP_domain.with_packet_end, join_bot_bot,
    zipWith_join_replicate_bot]

/-- Joining the bottom RCP value onto the unknown number is the identity. -/
theorem joinR_bot_numtop (M : Nat) :
    (RCP_domain.botRCP M).joinR (RCP_domain.numtopM M) = RCP_domain.numtopM M := by
  simp [RCP_domain.joinR, RCP_domain.botRCP, RCP_domain.numtopM, RCP_domain.with_numtop,
    join_bot_bot, join_bot_top, zipWith_join_replicate_bot]

/-- The sum of two pure packet pointers is the unknown number: neither
side is a number, so the modelled pointer arithmetic falls into the
any-other-combination case. -/
theorem addRCP_packet_packet (M : Nat) (k1 k2 : Int) :
    ((RCP_domain.botRCP M).with_packet k1).addRCP ((RCP_domain.botRCP M).with_packet k2) =
      RCP_domain.numtopM M := by
  simp [RCP_domain.addRCP, RCP_domain.is_bot, RCP_domain.must_be_num,
    RCP_domain.botRCP, RCP_domain.with_packet, NumDomSet.is_bot, NumDomSet.bot,
    NumDomSet.single, all_isbot_replicate]

/-- C5 counterexample: for the non-singleton offset set of 0 and 8 the
ctx load havocs the result (TOP in every component), which differs from
the num-TOP the claim promises. -/
theorem C5_load_ctx_counterexample :
    Machine.load_ctx infoCtx ⟨false, [0, 8]⟩ 4 ≠ RCP_domain.numtopM 0 := by decide

/-- C5 amended: for a singleton ctx offset, load_ctx returns the packet
pointer at sentinel offset 3 for the data field, packet_end for the end
field, the sum data_start plus packet 0 (which the pointer arithmetic
collapses to num-TOP) for the meta field, and num-TOP for every other
singleton; a non-bottom non-singleton offset set yields the fully
havocked value, TOP in every region, not num-TOP. -/
theorem C5_load_ctx_cases (info : program_info) (o w : Int) :
    (info.descriptor.data > -1 → o = info.descriptor.data →
      Machine.load_ctx info ⟨false, [o]⟩ w =
        (RCP_domain.botRCP info.map_defs.length).with_packet 3)
    ∧ (¬(info.descriptor.data > -1 ∧ o = info.descriptor.data) →
        info.descriptor.endF > -1 → o = info.descriptor.endF →
        Machine.load_ctx info ⟨false, [o]⟩ w =
          (RCP_domain.botRCP info.map_defs.length).with_packet_end)
    ∧ (¬(info.descriptor.data > -1 ∧ o = info.descriptor.data) →
        ¬(info.descriptor.endF > -1 ∧ o = info.descriptor.endF) →
        info.descriptor.meta > -1 → o = info.descriptor.meta →
        Machine.load_ctx info ⟨false, [o]⟩ w = RCP_domain.numtopM info.map_defs.length)
    ∧ (¬(info.descriptor.data > -1 ∧ o = info.descriptor.data) →
        ¬(info.descriptor.endF > -1 ∧ o = info.descriptor.endF) →
        ¬(info.descriptor.meta > -1 ∧ o = info.descriptor.meta) →
        Machine.load_ctx info ⟨false, [o]⟩ w = RCP_domain.numtopM info.map_defs.length)
    ∧ (∀ s : OffsetDomSet, s.is_bot = false → s.is_single = false →
        Machine.load_ctx info s w =
          (RCP_domain.botRCP info.map_defs.length).havocR) := by
  have hsing : (⟨false, [o]⟩ : OffsetDomSet).is_single = true := rfl
  have hnbot : (⟨false, [o]⟩ : OffsetDomSet).is_bot = false := rfl
  have hcont : ∀ x : Int, (⟨false, [o]⟩ : OffsetDomSet).containsV x = (x == o) := by
    intro x
    by_cases h : x = o <;> simp [NumDomSet.containsV, List.contains, h]
  refine ⟨?_, ?_, ?_, ?_, ?_⟩
  · intro hd ho
    subst ho
    simp only [Machine.load_ctx, hnbot, hsing, hcont]
    rw [if_neg (by simp), if_pos trivial]
    rw [if_pos (by simp [hd])]
    exact joinR_bot_packet _ 3
  · intro hnd he hoe
    subst hoe
    simp only [Machine.load_ctx, hnbot, hsing, hcont]
    rw [if_neg (by simp), if_pos trivial]
    rw [if_neg ?_, if_pos (by simp [he])]
    · exact joinR_bot_packet_end _
    · simp only [Bool.and_eq_true, decide_eq_true_eq, beq_iff_eq, not_and]
      intro h1 h2
      exact hnd ⟨h1, h2.symm⟩
  · intro hnd hne hm hom
    subst hom
    simp only [Machine.load_ctx, hnbot, hsing, hcont]
    rw [if_neg (by simp), if_pos trivial]
    rw [if_neg ?_, if_neg ?_, if_pos (by simp [hm])]
    · rw [addRCP_packet_packet, joinR_bot_numtop]
    · simp only [Bool.and_eq_true, decide_eq_true_eq, beq_iff_eq, not_and]
      intro h1 h2
      exact hne ⟨h1, h2.symm⟩
    · simp only [Bool.and_eq_true, decide_eq_true_eq, beq_iff_eq, not_and]
      intro h1 h2
      exact hnd ⟨h1, h2.symm⟩
  · intro hnd hne hnm
    simp only [Machine.load_ctx, hnbot, hsing, hcont]
    rw [if_neg (by simp), if_pos trivial]
    rw [if_neg ?_, if_neg ?_, if_neg ?_]
    · exact joinR_bot_numtop _
    · simp only [Bool.and_eq_true, decide_eq_true_eq, beq_iff_eq, not_and]
      intro h1 h2
      exact hnm ⟨h1, h2.symm⟩
    · simp only [Bool.and_eq_true, decide_eq_true_eq, beq_iff_eq, not_and]
      intro h1 h2
      exact hne ⟨h1, h2.symm⟩
    · simp only [Bool.and_eq_true, decide_eq_true_eq, beq_iff_eq, not_and]
      intro h1 h2
      exact hnd ⟨h1, h2.symm⟩
  · intro s hb hs
    simp only [Machine.load_ctx, hb, hs]
    rw [if_neg (by simp), if_neg (by simp)]

/-- Witness for C5 at the concrete descriptor with data on offset 0. -/
theorem C5_load_ctx_cases_witness :
    Machine.load_ctx infoCtx ⟨false, [0]⟩ 4 = (RCP_domain.botRCP 0).with_packet 3 :=
  (C5_load_ctx_cases infoCtx 0 4).1 (by decide) rfl

/-- Binding a successful Except value applies the continuation. -/
theorem exceptBind_ok {α β : Type} (x : α) (f : α → Except VError β) :
    (do let y ← Except.ok x; f y) = f x := rfl

/-- Binding a failed Except value propagates the error. -/
theorem exceptBind_error {α β : Type} (e : VError) (f : α → Except VError β) :
    (do let y ← (Except.error e : Except VError α); f y) = Except.error e := rfl

/-- C7: when the right-hand side of an Assume evaluates to packet_end,
the LE operator raises the data_end lower bound to the maximum of its old
value and the minimum possible packet offset of the left register,
touching neither the registers nor the stack; every other operator leaves
the machine unchanged. -/
theorem C7_assume_packet_end (info : program_info) (m : Machine) (cond : Condition)
    (rv : RCP_domain) (hr : m.evalV info cond.right = .ok rv)
    (hpe : rv.is_packet_end = true) :
    (∀ lv es, cond.op = CondOp.LE → m.regs.atReg cond.left = .ok lv →
      lv.packet = ⟨false, es⟩ → ∀ mn, es.min? = some mn →
      Machine.visit info (.Assume cond) m =
        .ok ⟨m.regs, m.stack_arr, ⟨max m.data_end.size mn⟩⟩)
    ∧ (cond.op ≠ CondOp.LE → Machine.visit info (.Assume cond) m = .ok m) := by
  constructor
  · intro lv es hop hlv hpk mn hmn
    cases es with
    | nil => simp [List.min?] at hmn
    | cons a t =>
      simp only [Machine.visit]
      rw [hr, exceptBind_ok, hpe, if_pos rfl, hop]
      simp only [beq_self_eq_true]
      rw [if_pos trivial, hlv, exceptBind_ok, hpk]
      simp only [MinSizeDom.assume_larger_than, NumDomSet.is_bot, NumDomSet.is_top]
      simp only [List.isEmpty_cons, Bool.not_false, Bool.and_false, Bool.false_and]
      rw [if_neg (by simp)]
      rw [hmn]
      simp only [if_neg (by simp : ¬(false = true))]
      rfl
  · intro hop
    have hb : (cond.op == CondOp.LE) = false := by
      simpa using hop
    simp only [Machine.visit]
    rw [hr, exceptBind_ok, hpe, if_pos rfl, hb]
    rw [if_neg (by simp)]
    rfl

/-- Witness for C7: from a machine whose r1 carries packet offsets 7 and
9 and whose data_end bound is 3, the assume r1 LE r2 with r2 = packet_end
raises data_end to 7. -/
theorem C7_assume_packet_end_witness :
    Machine.visit infoNoMaps (.Assume ⟨CondOp.LE, 1, .Reg 2⟩) mAssumePkt =
      .ok ⟨mAssumePkt.regs, mAssumePkt.stack_arr, ⟨max mAssumePkt.data_end.size 7⟩⟩ :=
  (C7_assume_packet_end infoNoMaps mAssumePkt ⟨CondOp.LE, 1, .Reg 2⟩
      ((RCP_domain.botRCP 0).with_packet_end) rfl rfl).1
    { RCP_domain.botRCP 0 with packet := ⟨false, [7, 9]⟩ } [7, 9] rfl rfl rfl 7 rfl

/-- Inversion of a failing Except bind: the failure is in the first
action or in the continuation. -/
theorem exceptBind_error_inv {α β : Type} (x : Except VError α) (f : α → Except VError β)
    (e : VError) :
    (x >>= f) = .error e → x = .error e ∨ ∃ a, x = .ok a ∧ f a = .error e := by
  cases x with
  | error e2 =>
    intro h
    left
    have : e2 = e := by
      simpa [Bind.bind, Except.bind] using h
    rw [this]
  | ok a =>
    intro h
    right
    exact ⟨a, rfl, h⟩

/-- RegsDom::at fails exactly on an absent slot, and the failure carries
the index of the register. -/
theorem atReg_error_iff (d : RegsDom) (r : Nat) (e : VError) :
    d.atReg r = .error e ↔ (d.regs.getD r none = none ∧ e = .uninitReg r) := by
  unfold RegsDom.atReg
  cases h : d.regs.getD r none <;> simp
  exact eq_comm

/-- An uninitialized-register failure of eval points at an absent slot. -/
theorem evalV_error_uninit (info : program_info) (m : Machine) (v : Value) (i : Nat) :
    Machine.evalV info m v = .error (.uninitReg i) → m.regs.regs.getD i none = none := by
  cases v with
  | Imm x =>
    intro h
    simp [Machine.evalV] at h
  | Reg r =>
    intro h
    obtain ⟨h1, h2⟩ := (atReg_error_iff m.regs r (.uninitReg i)).mp h
    injection h2 with h3
    rw [h3]
    exact h1

/-- Machine::store only writes the stack component. -/
theorem storeMach_regs (m : Machine) (addr : RCP_domain) (width : NumDomSet)
    (v : RCP_domain) : (Machine.storeMach m addr width v).regs = m.regs := by
  unfold Machine.storeMach
  dsimp only
  repeat' split
  all_goals rfl

/-- Machine::store only writes the stack component (data_end version). -/
theorem storeMach_data_end (m : Machine) (addr : RCP_domain) (width : NumDomSet)
    (v : RCP_domain) : (Machine.storeMach m addr width v).data_end = m.data_end := by
  unfold Machine.storeMach
  dsimp only
  repeat' split
  all_goals rfl

/-- A successful helper-call pair argument leaves the register file
unchanged (it stores through the pointer only). -/
theorem callPair_ok_regs (info : program_info) (m : Machine) (arg : ArgPair)
    (m2 : Machine) : Machine.callPair info m arg = .ok m2 → m2.regs = m.regs := by
  obtain ⟨k, mem, size, cz⟩ := arg
  cases k <;> simp only [Machine.callPair] <;> intro h
  · cases hm : m.regs.atReg mem with
    | error e => rw [hm, exceptBind_error] at h; cases h
    | ok mv =>
      rw [hm, exceptBind_ok] at h
      by_cases hnum : mv.must_be_num = true
      · rw [if_pos hnum] at h
        cases h
        rfl
      · rw [if_neg hnum] at h
        cases hs : m.regs.atReg size with
        | error e => rw [hs, exceptBind_error] at h; cases h
        | ok sz =>
          rw [hs, exceptBind_ok] at h
          cases h
          exact storeMach_regs m mv sz.num _
  · cases hm : m.regs.atReg mem with
    | error e => rw [hm, exceptBind_error] at h; cases h
    | ok mv =>
      rw [hm, exceptBind_ok] at h
      cases hs : m.regs.atReg size with
      | error e => rw [hs, exceptBind_error] at h; cases h
      | ok sz =>
        rw [hs, exceptBind_ok] at h
        cases h
        exact storeMach_regs m mv sz.num _
  · cases hm : m.regs.atReg mem with
    | error e => rw [hm, exceptBind_error] at h; cases h
    | ok mv =>
      rw [hm, exceptBind_ok] at h
      cases hs : m.regs.atReg size with
      | error e => rw [hs, exceptBind_error] at h; cases h
      | ok sz =>
        rw [hs, exceptBind_ok] at h
        cases h
        exact storeMach_regs m mv sz.num _

/-- A failing helper-call pair argument with an uninitialized-register
diagnostic points at an absent slot. -/
theorem callPair_error_uninit (info : program_info) (m : Machine) (arg : ArgPair)
    (i : Nat) :
    Machine.callPair info m arg = .error (.uninitReg i) →
      m.regs.regs.getD i none = none := by
  obtain ⟨k, mem, size, cz⟩ := arg
  cases k <;> simp only [Machine.callPair] <;> intro h
  · cases hm : m.regs.atReg mem with
    | error e =>
      rw [hm, exceptBind_error] at h
      injection h with he
      rw [he] at hm
      obtain ⟨h1, h2⟩ := (atReg_error_iff m.regs mem (.uninitReg i)).mp hm
      injection h2 with h3
      rw [h3]
      exact h1
    | ok mv =>
      rw [hm, exceptBind_ok] at h
      by_cases hnum : mv.must_be_num = true
      · rw [if_pos hnum] at h
        cases h
      · rw [if_neg hnum] at h
        cases hs : m.regs.atReg size with
        | error e =>
          rw [hs, exceptBind_error] at h
          injection h with he
          rw [he] at hs
          obtain ⟨h1, h2⟩ := (atReg_error_iff m.regs size (.uninitReg i)).mp hs
          injection h2 with h3
          rw [h3]
          exact h1
        | ok sz =>
          rw [hs, exceptBind_ok] at h
          cases h
  · cases hm : m.regs.atReg mem with
    | error e =>
      rw [hm, exceptBind_error] at h
      injection h with he
      rw [he] at hm
      obtain ⟨h1, h2⟩ := (atReg_error_iff m.regs mem (.uninitReg i)).mp hm
      injection h2 with h3
      rw [h3]
      exact h1
    | ok mv =>
      rw [hm, exceptBind_ok] at h
      cases hs : m.regs.atReg size with
      | error e =>
        rw [hs, exceptBind_error] at h
        injection h with he
        rw [he] at hs
        obtain ⟨h1, h2⟩ := (atReg_error_iff m.regs size (.uninitReg i)).mp hs
        injection h2 with h3
        rw [h3]
        exact h1
      | ok sz =>
        rw [hs, exceptBind_ok] at h
        cases h
  · cases hm : m.regs.atReg mem with
    | error e =>
      rw [hm, exceptBind_error] at h
      injection h with he
      rw [he] at hm
      obtain ⟨h1, h2⟩ := (atReg_error_iff m.regs mem (.uninitReg i)).mp hm
      injection h2 with h3
      rw [h3]
      exact h1
    | ok mv =>
      rw [hm, exceptBind_ok] at h
      cases hs : m.regs.atReg size with
      | error e =>
        rw [hs, exceptBind_error] at h
        injection h with he
        rw [he] at hs
        obtain ⟨h1, h2⟩ := (atReg_error_iff m.regs size (.uninitReg i)).mp hs
        injection h2 with h3
        rw [h3]
        exact h1
      | ok sz =>
        rw [hs, exceptBind_ok] at h
        cases h

/-- A failing register read with an uninitialized diagnostic points at the
named absent slot. -/
theorem atReg_error_uninit (d : RegsDom) (r : Nat) (i : Nat) :
    d.atReg r = .error (.uninitReg i) → d.regs.getD i none = none := by
  intro h
  obtain ⟨h1, h2⟩ := (atReg_error_iff d r _).mp h
  injection h2 with h3
  rw [h3]
  exact h1

/-- A successful pair-argument fold leaves the register file unchanged. -/
theorem foldPairs_ok_regs (info : program_info) :
    ∀ (pairs : List ArgPair) (m m2 : Machine),
      pairs.foldlM (fun mm arg => Machine.callPair info mm arg) m = .ok m2 →
      m2.regs = m.regs := by
  intro pairs
  induction pairs with
  | nil =>
    intro m m2 h
    rw [List.foldlM_nil] at h
    cases h
    rfl
  | cons a t ih =>
    intro m m2 h
    rw [List.foldlM_cons] at h
    cases hc : Machine.callPair info m a with
    | error e => rw [hc, exceptBind_error] at h; cases h
    | ok mm =>
      rw [hc, exceptBind_ok] at h
      rw [ih mm m2 h, callPair_ok_regs info m a mm hc]

/-- A failing pair-argument fold with an uninitialized diagnostic points
at an absent slot of the starting machine. -/
theorem foldPairs_error_uninit (info : program_info) :
    ∀ (pairs : List ArgPair) (m : Machine) (i : Nat),
      pairs.foldlM (fun mm arg => Machine.callPair info mm arg) m =
        .error (.uninitReg i) →
      m.regs.regs.getD i none = none := by
  intro pairs
  induction pairs with
  | nil =>
    intro m i h
    rw [List.foldlM_nil] at h
    cases h
  | cons a t ih =>
    intro m i h
    rw [List.foldlM_cons] at h
    cases hc : Machine.callPair info m a with
    | error e =>
      rw [hc, exceptBind_error] at h
      injection h with he
      rw [he] at hc
      exact callPair_error_uninit info m a i hc
    | ok mm =>
      rw [hc, exceptBind_ok] at h
      have := ih mm i h
      rw [callPair_ok_regs info m a mm hc] at this
      exact this

/-- Every transfer function that fails with an uninitialized-register
diagnostic was reading an absent slot of the input machine. -/
theorem visit_error_uninit (info : program_info) (ins : Instruction) (m : Machine)
    (i : Nat) :
    Machine.visit info ins m = .error (.uninitReg i) →
      m.regs.regs.getD i none = none := by
  cases ins with
  | Undefined =>
    intro h
    simp [Machine.visit] at h
  | LoadMapFd dst mapfd =>
    intro h
    simp [Machine.visit] at h
  | Un dst =>
    intro h
    simp [Machine.visit] at h
  | Exit =>
    intro h
    simp [Machine.visit] at h
  | Jmp c =>
    intro h
    simp [Machine.visit] at h
  | Packet =>
    intro h
    simp [Machine.visit] at h
  | LockAdd a v =>
    intro h
    simp [Machine.visit] at h
  | Bin op dst v =>
    intro h
    cases op
    case MOV =>
      simp only [Machine.visit] at h
      rcases exceptBind_error_inv _ _ _ h with h1 | ⟨a, h1, h2⟩
      · exact evalV_error_uninit info m v i h1
      · cases h2
    all_goals (
      simp only [Machine.visit] at h
      rcases exceptBind_error_inv _ _ _ h with h1 | ⟨a, h1, h2⟩
      · exact atReg_error_uninit m.regs dst i h1
      · rcases exceptBind_error_inv _ _ _ h2 with h3 | ⟨b, h3, h4⟩
        · exact evalV_error_uninit info m v i h3
        · cases h4)
  | Assume cond =>
    intro h
    simp only [Machine.visit] at h
    rcases exceptBind_error_inv _ _ _ h with h1 | ⟨rv, h1, h2⟩
    · exact evalV_error_uninit info m cond.right i h1
    · split at h2
      · split at h2
        · rcases exceptBind_error_inv _ _ _ h2 with h3 | ⟨lv, h3, h4⟩
          · exact atReg_error_uninit m.regs cond.left i h3
          · split at h4
            · cases h4
            · cases h4
        · cases h2
      · rcases exceptBind_error_inv _ _ _ h2 with h3 | ⟨lv, h3, h4⟩
        · exact atReg_error_uninit m.regs cond.left i h3
        · cases h4
  | Assert cst =>
    intro h
    cases cst with
    | lin lc =>
      simp only [Machine.visit] at h
      rcases exceptBind_error_inv _ _ _ h with h1 | ⟨lv, h1, h2⟩
      · exact atReg_error_uninit m.regs lc.reg i h1
      · rcases exceptBind_error_inv _ _ _ h2 with h3 | ⟨vv, h3, h4⟩
        · exact evalV_error_uninit info m lc.v i h3
        · rcases exceptBind_error_inv _ _ _ h4 with h5 | ⟨wv, h5, h6⟩
          · exact evalV_error_uninit info m lc.width i h5
          · cases h6
    | tc c =>
      simp only [Machine.visit] at h
      rcases exceptBind_error_inv _ _ _ h with h1 | ⟨rv, h1, h2⟩
      · exact atReg_error_uninit m.regs c.thenC.reg i h1
      · cases hg : c.given with
        | some g =>
          rw [hg] at h2
          rcases exceptBind_error_inv _ _ _ h2 with h3 | ⟨gv, h3, h4⟩
          · exact atReg_error_uninit m.regs g.reg i h3
          · cases h4
        | none =>
          rw [hg] at h2
          cases h2
    | inPacket ip =>
      simp only [Machine.visit] at h
      rcases exceptBind_error_inv _ _ _ h with h1 | ⟨rv, h1, h2⟩
      · exact atReg_error_uninit m.regs ip.reg i h1
      · rcases exceptBind_error_inv _ _ _ h2 with h3 | ⟨wv, h3, h4⟩
        · exact evalV_error_uninit info m ip.width i h3
        · split at h4
          · cases h4
          · cases h4
  | Call singles pairs returns_map =>
    intro h
    simp only [Machine.visit] at h
    rcases exceptBind_error_inv _ _ _ h with h1 | ⟨m1, h1, h2⟩
    · exact foldPairs_error_uninit info pairs m i h1
    · split at h2
      · rcases exceptBind_error_inv _ _ _ h2 with h5 | ⟨r1v, h5, h6⟩
        · have := atReg_error_uninit m1.regs 1 i h5
          rw [foldPairs_ok_regs info pairs m m1 h1] at this
          exact this
        · cases h6
      · cases h2
  | Mem access value is_load =>
    intro h
    simp only [Machine.visit] at h
    rcases exceptBind_error_inv _ _ _ h with h1 | ⟨base, h1, h2⟩
    · exact atReg_error_uninit m.regs access.basereg i h1
    · split at h2
      · split at h2
        · cases h2
        · cases h2
      · rcases exceptBind_error_inv _ _ _ h2 with h3 | ⟨vv, h3, h4⟩
        · exact evalV_error_uninit info m value i h3
        · cases h4

/-- C6: reading an absent register slot through RegsDom::at is reported
as an analysis failure carrying the register index, and every transfer
function that surfaces an uninitialized-register diagnostic was reading
an absent slot of its input machine: no transfer catches the failure or
produces it any other way. -/
theorem C6_uninitialized_register :
    (∀ (d : RegsDom) (r : Nat) (e : VError),
      d.atReg r = .error e ↔ (d.regs.getD r none = none ∧ e = .uninitReg r))
    ∧ (∀ (info : program_info) (ins : Instruction) (m : Machine) (i : Nat),
        Machine.visit info ins m = .error (.uninitReg i) →
        m.regs.regs.getD i none = none) :=
  ⟨atReg_error_iff, visit_error_uninit⟩

/-- Witness for C6: reading the absent r3 of a concrete machine through
an add instruction aborts with the uninitialized-register-3 diagnostic. -/
theorem C6_uninitialized_register_witness :
    mUninit.regs.regs.getD 3 none = none :=
  C6_uninitialized_register.2 infoNoMaps (.Bin .ADD 3 (.Imm 1)) mUninit 3 rfl

/-- Setting a slot other than 10 does not change slot 10. -/
theorem getD_set_ne_ten {α : Type} (l : List (Option α)) (j : Nat) (x : Option α)
    (hj : j ≠ 10) : (l.set j x).getD 10 none = l.getD 10 none := by
  unfold List.getD
  rw [List.get?_eq_getElem?, List.get?_eq_getElem?, List.getElem?_set_ne hj]

/-- Assigning a register other than r10 does not change r10. -/
theorem assign_preserves_r10 (d : RegsDom) (r : Nat) (v : RCP_domain) (hr : r ≠ 10) :
    (d.assign r v).regs.getD 10 none = d.regs.getD 10 none :=
  getD_set_ne_ten d.regs r (some v) hr

/-- Scratching r1..r5 does not change r10. -/
theorem scratch_preserves_r10 (d : RegsDom) :
    d.scratch_regs.regs.getD 10 none = d.regs.getD 10 none := by
  unfold RegsDom.scratch_regs
  simp only [List.foldl]
  rw [getD_set_ne_ten _ 5 _ (by omega), getD_set_ne_ten _ 4 _ (by omega),
    getD_set_ne_ten _ 3 _ (by omega), getD_set_ne_ten _ 2 _ (by omega),
    getD_set_ne_ten _ 1 _ (by omega)]

/-- A Boolean disequality on register indices. -/
theorem neq_of_beq_false {a b : Nat} (h : (a == b) = false) : a ≠ b := by
  simpa using h

/-- Every transfer function that does not write or refine r10 preserves
the r10 slot. -/
theorem visit_preserves_r10 (info : program_info) (ins : Instruction) (m m2 : Machine)
    (hw : writesR10 ins = false) :
    Machine.visit info ins m = .ok m2 →
      m2.regs.regs.getD 10 none = m.regs.regs.getD 10 none := by
  cases ins with
  | Undefined =>
    intro h
    cases h
  | LoadMapFd dst mapfd =>
    intro h
    cases h
    exact assign_preserves_r10 m.regs dst _ (neq_of_beq_false hw)
  | Un dst =>
    intro h
    cases h
    rfl
  | Exit =>
    intro h
    cases h
    rfl
  | Jmp c =>
    intro h
    cases h
    rfl
  | LockAdd a v =>
    intro h
    cases h
    rfl
  | Packet =>
    intro h
    cases h
    rw [scratch_preserves_r10, assign_preserves_r10 m.regs 0 _ (by omega)]
  | Bin op dst v =>
    intro h
    have hdst : dst ≠ 10 := neq_of_beq_false hw
    cases op
    case MOV =>
      simp only [Machine.visit] at h
      cases hv : Machine.evalV info m v with
      | error e => rw [hv, exceptBind_error] at h; cases h
      | ok rv =>
        rw [hv, exceptBind_ok] at h
        cases h
        exact assign_preserves_r10 m.regs dst _ hdst
    all_goals (
      simp only [Machine.visit] at h
      cases hc : m.regs.atReg dst with
      | error e => rw [hc, exceptBind_error] at h; cases h
      | ok cur =>
        rw [hc, exceptBind_ok] at h
        cases hv : Machine.evalV info m v with
        | error e => rw [hv, exceptBind_error] at h; cases h
        | ok rv =>
          rw [hv, exceptBind_ok] at h
          cases h
          exact assign_preserves_r10 m.regs dst _ hdst)
  | Assume cond =>
    intro h
    have hleft : cond.left ≠ 10 := neq_of_beq_false hw
    simp only [Machine.visit] at h
    cases hr : Machine.evalV info m cond.right with
    | error e => rw [hr, exceptBind_error] at h; cases h
    | ok rv =>
      rw [hr, exceptBind_ok] at h
      split at h
      · split at h
        · cases hl : m.regs.atReg cond.left with
          | error e => rw [hl, exceptBind_error] at h; cases h
          | ok lv =>
            rw [hl, exceptBind_ok] at h
            split at h
            · cases h
            · cases h
              rfl
        · cases h
          rfl
      · cases hl : m.regs.atReg cond.left with
        | error e => rw [hl, exceptBind_error] at h; cases h
        | ok lv =>
          rw [hl, exceptBind_ok] at h
          cases h
          exact assign_preserves_r10 m.regs cond.left _ hleft
  | Assert cst =>
    intro h
    cases cst with
    | lin lc =>
      have hreg : lc.reg ≠ 10 := neq_of_beq_false hw
      simp only [Machine.visit] at h
      cases h1 : m.regs.atReg lc.reg with
      | error e => rw [h1, exceptBind_error] at h; cases h
      | ok lv =>
        rw [h1, exceptBind_ok] at h
        cases h2 : Machine.evalV info m lc.v with
        | error e => rw [h2, exceptBind_error] at h; cases h
        | ok vv =>
          rw [h2, exceptBind_ok] at h
          cases h3 : Machine.evalV info m lc.width with
          | error e => rw [h3, exceptBind_error] at h; cases h
          | ok wv =>
            rw [h3, exceptBind_ok] at h
            cases h
            exact assign_preserves_r10 m.regs lc.reg _ hreg
    | tc c =>
      have hreg : c.thenC.reg ≠ 10 := neq_of_beq_false hw
      simp only [Machine.visit] at h
      cases h1 : m.regs.atReg c.thenC.reg with
      | error e => rw [h1, exceptBind_error] at h; cases h
      | ok rv =>
        rw [h1, exceptBind_ok] at h
        cases hg : c.given with
        | some g =>
          rw [hg] at h
          dsimp only at h
          cases h2 : m.regs.atReg g.reg with
          | error e => rw [h2, exceptBind_error] at h; cases h
          | ok gv =>
            rw [h2, exceptBind_ok] at h
            cases h
            exact assign_preserves_r10 m.regs c.thenC.reg _ hreg
        | none =>
          rw [hg] at h
          dsimp only at h
          cases h
          exact assign_preserves_r10 m.regs c.thenC.reg _ hreg
    | inPacket ip =>
      simp only [Machine.visit] at h
      cases h1 : m.regs.atReg ip.reg with
      | error e => rw [h1, exceptBind_error] at h; cases h
      | ok rv =>
        rw [h1, exceptBind_ok] at h
        cases h2 : Machine.evalV info m ip.width with
        | error e => rw [h2, exceptBind_error] at h; cases h
        | ok wv =>
          rw [h2, exceptBind_ok] at h
          split at h
          · cases h
          · cases h
            rfl
  | Call singles pairs returns_map =>
    intro h
    simp only [Machine.visit] at h
    cases h1 : pairs.foldlM (fun mm arg => Machine.callPair info mm arg) m with
    | error e => rw [h1, exceptBind_error] at h; cases h
    | ok m1 =>
      rw [h1, exceptBind_ok] at h
      have hm1 : m1.regs = m.regs := foldPairs_ok_regs info pairs m m1 h1
      split at h
      · cases h2 : m1.regs.atReg 1 with
        | error e => rw [h2, exceptBind_error] at h; cases h
        | ok r1v =>
          rw [h2, exceptBind_ok] at h
          cases h
          rw [scratch_preserves_r10, assign_preserves_r10 m1.regs 0 _ (by omega), hm1]
      · cases h
        rw [scratch_preserves_r10, assign_preserves_r10 m1.regs 0 _ (by omega), hm1]
  | Mem access value is_load =>
    intro h
    cases is_load with
    | true =>
      cases value with
      | Imm x =>
        simp only [Machine.visit] at h
        cases h1 : m.regs.atReg access.basereg with
        | error e => rw [h1, exceptBind_error] at h; cases h
        | ok base =>
          rw [h1, exceptBind_ok] at h
          cases h
      | Reg r =>
        have hr : r ≠ 10 := neq_of_beq_false hw
        simp only [Machine.visit] at h
        cases h1 : m.regs.atReg access.basereg with
        | error e => rw [h1, exceptBind_error] at h; cases h
        | ok base =>
          rw [h1, exceptBind_ok] at h
          cases h
          exact assign_preserves_r10 m.regs r _ hr
    | false =>
      simp only [Machine.visit] at h
      cases h1 : m.regs.atReg access.basereg with
      | error e => rw [h1, exceptBind_error] at h; cases h
      | ok base =>
        rw [h1, exceptBind_ok] at h
        cases h2 : Machine.evalV info m value with
        | error e => rw [h2, exceptBind_error] at h; cases h
        | ok vv =>
          rw [h2, exceptBind_ok] at h
          cases h
          rw [storeMach_regs]

/-- Folding the transfer functions of instructions that do not target r10
preserves the r10 slot. -/
theorem foldVisit_preserves_r10 (info : program_info) :
    ∀ (l : List Instruction) (m m2 : Machine),
      (∀ ins ∈ l, writesR10 ins = false) →
      l.foldlM (fun mm i => Machine.visit info i mm) m = .ok m2 →
      m2.regs.regs.getD 10 none = m.regs.regs.getD 10 none := by
  intro l
  induction l with
  | nil =>
    intro m m2 _ h
    rw [List.foldlM_nil] at h
    cases h
    rfl
  | cons a t ih =>
    intro m m2 hall h
    rw [List.foldlM_cons] at h
    cases hc : Machine.visit info a m with
    | error e => rw [hc, exceptBind_error] at h; cases h
    | ok mm =>
      rw [hc, exceptBind_ok] at h
      rw [ih mm m2 (fun i hi => hall i (List.mem_cons_of_mem a hi)) h]
      exact visit_preserves_r10 info a m mm (hall a (List.mem_cons_self a t)) hc

/-- C8 counterexample: from Machine::init, a mov of the immediate 5 into
r10 leaves r10 holding the number 5, not the stack pointer at offset
STACK_SIZE, so without restricting the instructions the claimed invariant
fails. -/
theorem C8_r10_counterexample :
    (Machine.visit infoNoMaps (.Bin .MOV 10 (.Imm 5)) (Machine.initM infoNoMaps)).map
        (fun m => m.regs.regs.getD 10 none) =
      .ok (some ((RCP_domain.botRCP 0).with_num 5))
    ∧ some ((RCP_domain.botRCP 0).with_num 5) ≠
        some ((RCP_domain.botRCP 0).with_stack STACK_SIZE) :=
  ⟨rfl, by decide⟩

/-- C8 amended: in every machine reached from Machine::init by transfer
functions of instructions that never write or refine r10 (true of
well-formed eBPF programs, whose frame pointer is read-only), r10 is
present and holds exactly the single stack pointer at offset
STACK_SIZE. -/
theorem C8_r10_stack_invariant (info : program_info) (l : List Instruction) (m : Machine)
    (hw : ∀ ins ∈ l, writesR10 ins = false)
    (hrun : l.foldlM (fun mm i => Machine.visit info i mm) (Machine.initM info) = .ok m) :
    m.regs.regs.getD 10 none =
      some ((RCP_domain.botRCP info.map_defs.length).with_stack STACK_SIZE) := by
  rw [foldVisit_preserves_r10 info l (Machine.initM info) m hw hrun]
  rfl

/-- Witness for C8 on the one-instruction program exit. -/
theorem C8_r10_stack_invariant_witness :
    (Machine.initM infoNoMaps).regs.regs.getD 10 none =
      some ((RCP_domain.botRCP 0).with_stack STACK_SIZE) :=
  C8_r10_stack_invariant infoNoMaps [.Exit] (Machine.initM infoNoMaps) (by decide) rfl

/-- C3 counterexample: with two pair arguments, the extractor emits no
num TypeConstraint on the second pair's size register (register 7): the
pairs loop of the source breaks after the first pair, so the constraints
the claim requires for every pair are missing from the second one on. -/
theorem C3_call_pairs_counterexample :
    AssertionExtractor.type_of 7 (TypeSet.num 0) ∉
      AssertionExtractor.callAsserts infoNoMaps false [] [pairFst, pairSnd] := by
  decide

/-- C3 amended: the Call extractor emits the single-argument constraints
followed, for the first pair only (the loop breaks after one pair), by the
kind-determined mem-type constraint on arg.mem, the num constraint and
the strict or non-strict positivity constraint on arg.size, and the
check_access constraints for mem types on (arg.mem, 0, arg.size); the
remaining pairs contribute nothing. -/
theorem C3_call_first_pair_only (info : program_info) (priv : Bool)
    (singles : List ArgSingle) (p : ArgPair) (rest : List ArgPair) :
    (AssertionExtractor.callAsserts info priv singles (p :: rest) =
      (singles.map (AssertionExtractor.singleAsserts info.map_defs.length priv)).flatten
        ++ ((match p.kind with
            | .PTR_TO_MEM_OR_NULL =>
              [AssertionExtractor.type_of p.mem
                  (TypeSet.unionT (TypeSet.mem info.map_defs.length)
                    (TypeSet.num info.map_defs.length)),
               .lin ⟨CondOp.EQ, p.mem, 0, .Imm 0, .Imm 0, TypeSet.num info.map_defs.length⟩]
            | .PTR_TO_MEM =>
              [AssertionExtractor.type_of p.mem (TypeSet.mem info.map_defs.length)]
            | .PTR_TO_UNINIT_MEM =>
              [AssertionExtractor.type_of p.mem (TypeSet.mem info.map_defs.length)])
          ++ [AssertionExtractor.type_of p.size (TypeSet.num info.map_defs.length),
              .lin ⟨(if p.can_be_zero then CondOp.GE else CondOp.GT), p.size, 0, .Imm 0,
                .Imm 0, TypeSet.num info.map_defs.length⟩]
          ++ AssertionExtractor.check_access info (TypeSet.mem info.map_defs.length) p.mem 0
              (.Reg p.size)))
    ∧ AssertionExtractor.callAsserts info priv singles (p :: rest) =
        AssertionExtractor.callAsserts info priv singles [p] := by
  constructor
  · obtain ⟨k, mem, size, cz⟩ := p
    cases k <;> cases cz <;>
      simp [AssertionExtractor.callAsserts, AssertionExtractor.pairAsserts]
  · rfl

/-- Removing consecutive duplicates never increases an occurrence
count. -/
theorem dedupConsec_count_le (l : Nat) : ∀ (w : List Nat),
    List.count l (dedupConsec w) ≤ List.count l w := by
  intro w
  induction w with
  | nil => simp [dedupConsec]
  | cons a t ih =>
    cases t with
    | nil => simp [dedupConsec]
    | cons b t2 =>
      simp only [dedupConsec]
      split
      · refine le_trans ih ?_
        simp only [List.count_cons]
        omega
      · simp only [List.count_cons] at ih ⊢
        omega

/-- Members of the deduplicated list are members of the original. -/
theorem dedupConsec_mem (x : Nat) : ∀ (w : List Nat), x ∈ dedupConsec w → x ∈ w := by
  intro w
  induction w with
  | nil => intro h; exact h
  | cons a t ih =>
    cases t with
    | nil => intro h; exact h
    | cons b t2 =>
      simp only [dedupConsec]
      split
      · intro h
        exact List.mem_cons_of_mem a (ih h)
      · intro h
        rcases List.mem_cons.mp h with h1 | h1
        · rw [h1]; exact List.mem_cons_self a _
        · exact List.mem_cons_of_mem a (ih h1)

/-- Bumping a counter at its own label. -/
theorem bump_same (f : Nat → Nat) (l : Nat) : bump f l l = f l + 1 := by
  simp [bump]

/-- Bumping a counter elsewhere. -/
theorem bump_ne (f : Nat → Nat) (l x : Nat) (h : x ≠ l) : bump f l x = f x := by
  have hb : (x == l) = false := by simpa using h
  simp [bump, hb]

/-- The fields of one instrumented push step: the counter of the
successor is bumped, and either the label is appended and its push
counter bumped, or nothing else changes. -/
theorem gPushStep_fields (cfg : Cfg) (acc : PushAcc) (a : Nat) :
    (gPushStep cfg acc a).count = bump acc.count a
    ∧ ((gPushStep cfg acc a).w = acc.w ++ [a]
          ∧ (gPushStep cfg acc a).pushes = bump acc.pushes a
        ∨ (gPushStep cfg acc a).w = acc.w
          ∧ (gPushStep cfg acc a).pushes = acc.pushes) := by
  unfold gPushStep
  dsimp only
  split
  · exact ⟨rfl, Or.inl ⟨rfl, rfl⟩⟩
  · exact ⟨rfl, Or.inr ⟨rfl, rfl⟩⟩

/-- One fold step of the instrumented successor loop. -/
theorem gPushSuccs_cons (cfg : Cfg) (a : Nat) (t : List Nat) (acc : PushAcc) :
    gPushSuccs cfg (a :: t) acc = gPushSuccs cfg t (gPushStep cfg acc a) := rfl

/-- The instrumented successor loop adds the successor occurrence counts
onto the counters. -/
theorem gPushSuccs_count (cfg : Cfg) : ∀ (nexts : List Nat) (acc : PushAcc) (l : Nat),
    (gPushSuccs cfg nexts acc).count l = acc.count l + List.count l nexts := by
  intro nexts
  induction nexts with
  | nil =>
    intro acc l
    simp [gPushSuccs, List.count_nil]
  | cons a t ih =>
    intro acc l
    rw [gPushSuccs_cons, ih, (gPushStep_fields cfg acc a).1, List.count_cons]
    by_cases h : l = a
    · subst h
      rw [bump_same]
      simp
      omega
    · rw [bump_ne _ _ _ h]
      have hb : (a == l) = false := by simpa using Ne.symm h
      simp [hb]

/-- The instrumented successor loop keeps pushes below counters. -/
theorem gPushSuccs_pushes_le (cfg : Cfg) : ∀ (nexts : List Nat) (acc : PushAcc),
    (∀ l, acc.pushes l ≤ acc.count l) →
    ∀ l, (gPushSuccs cfg nexts acc).pushes l ≤ (gPushSuccs cfg nexts acc).count l := by
  intro nexts
  induction nexts with
  | nil =>
    intro acc h l
    exact h l
  | cons a t ih =>
    intro acc h l
    rw [gPushSuccs_cons]
    refine ih (gPushStep cfg acc a) ?_ l
    intro x
    obtain ⟨hc, hrest⟩ := gPushStep_fields cfg acc a
    rw [hc]
    rcases hrest with ⟨hw, hp⟩ | ⟨hw, hp⟩
    · rw [hp]
      by_cases hx : x = a
      · subst hx
        rw [bump_same, bump_same]
        have := h x
        omega
      · rw [bump_ne _ _ _ hx, bump_ne _ _ _ hx]
        exact h x
    · rw [hp]
      by_cases hx : x = a
      · subst hx
        rw [bump_same]
        have := h x
        omega
      · rw [bump_ne _ _ _ hx]
        exact h x

/-- Occurrences in the FIFO plus old pushes balance old occurrences plus
new pushes across the instrumented successor loop. -/
theorem gPushSuccs_w_count (cfg : Cfg) : ∀ (nexts : List Nat) (acc : PushAcc) (l : Nat),
    List.count l (gPushSuccs cfg nexts acc).w + acc.pushes l =
      List.count l acc.w + (gPushSuccs cfg nexts acc).pushes l := by
  intro nexts
  induction nexts with
  | nil =>
    intro acc l
    rfl
  | cons a t ih =>
    intro acc l
    rw [gPushSuccs_cons]
    have hstep := ih (gPushStep cfg acc a) l
    obtain ⟨hc, hrest⟩ := gPushStep_fields cfg acc a
    rcases hrest with ⟨hw, hp⟩ | ⟨hw, hp⟩ <;> rw [hw, hp] at hstep
    · simp only [List.count_append, List.count_cons, List.count_nil] at hstep
      by_cases hx : l = a
      · subst hx
        rw [bump_same] at hstep
        simp only [beq_self_eq_true, if_pos] at hstep
        omega
      · rw [bump_ne _ _ _ hx] at hstep
        have hb : (a == l) = false := by simpa using Ne.symm hx
        simp only [hb] at hstep
        simp at hstep
        omega
    · omega

/-- Members of the FIFO after the instrumented successor loop come from
the old FIFO or the successor list. -/
theorem gPushSuccs_w_mem (cfg : Cfg) : ∀ (nexts : List Nat) (acc : PushAcc) (x : Nat),
    x ∈ (gPushSuccs cfg nexts acc).w → x ∈ acc.w ∨ x ∈ nexts := by
  intro nexts
  induction nexts with
  | nil =>
    intro acc x h
    exact Or.inl h
  | cons a t ih =>
    intro acc x h
    rw [gPushSuccs_cons] at h
    obtain ⟨hc, hrest⟩ := gPushStep_fields cfg acc a
    rcases ih (gPushStep cfg acc a) x h with h1 | h1
    · rcases hrest with ⟨hw, hp⟩ | ⟨hw, hp⟩ <;> rw [hw] at h1
      · rcases List.mem_append.mp h1 with h2 | h2
        · exact Or.inl h2
        · right
          rw [List.mem_singleton.mp h2]
          exact List.mem_cons_self a t
      · exact Or.inl h1
    · right
      exact List.mem_cons_of_mem a h1

/-- The instrumented successor loop projects onto the plain one. -/
theorem gPushSuccs_proj (cfg : Cfg) : ∀ (nexts : List Nat) (count : Nat → Nat)
    (w : List Nat) (pushes : Nat → Nat),
    ((gPushSuccs cfg nexts ⟨count, w, pushes⟩).count,
      (gPushSuccs cfg nexts ⟨count, w, pushes⟩).w) = pushSuccs cfg nexts (count, w) := by
  intro nexts
  induction nexts with
  | nil =>
    intro count w pushes
    rfl
  | cons a t ih =>
    intro count w pushes
    rw [gPushSuccs_cons]
    show _ = pushSuccs cfg (a :: t) (count, w)
    have hps : pushSuccs cfg (a :: t) (count, w) =
        pushSuccs cfg t
          (if bump count a a ≥ (cfg.blocks a).prevlist.length
            then (bump count a, w ++ [a]) else (bump count a, w)) := rfl
    rw [hps]
    unfold gPushStep
    dsimp only
    split
    · exact ih (bump count a) (w ++ [a]) (bump pushes a)
    · exact ih (bump count a) w pushes

/-- An empty-worklist result of the instrumented step means the FIFO was
empty. -/
theorem gStep_none (cfg : Cfg) (info : program_info) (g : GWState)
    (h : gStep cfg info g = .ok none) : g.base.w = [] := by
  cases hw : g.base.w with
  | nil => rfl
  | cons label rest =>
    exfalso
    simp only [gStep, hw] at h
    cases hr : (g.base.analyzer.joinInto (cfg.blocks label).prevlist label).recompute info
        label (cfg.blocks label) with
    | error e => rw [hr, exceptBind_error] at h; cases h
    | ok ab =>
      rw [hr, exceptBind_ok] at h
      split at h <;> cases h

/-- The instrumented worklist step projects onto the plain one. -/
theorem gStep_proj (cfg : Cfg) (info : program_info) (g : GWState) :
    wlStep cfg info g.base = (gStep cfg info g).map (Option.map GWState.base) := by
  obtain ⟨⟨w, count, analyzer⟩, pops, chpops, pushes⟩ := g
  cases w with
  | nil => rfl
  | cons label rest =>
    simp only [wlStep, gStep]
    cases hr : (analyzer.joinInto (cfg.blocks label).prevlist label).recompute info label
        (cfg.blocks label) with
    | error e =>
      rw [exceptBind_error, exceptBind_error]
      rfl
    | ok ab =>
      rw [exceptBind_ok, exceptBind_ok]
      obtain ⟨a2, changed⟩ := ab
      cases changed with
      | false => rfl
      | true =>
        dsimp only
        have hp := gPushSuccs_proj cfg (cfg.blocks label).nextlist count rest pushes
        rw [Prod.ext_iff] at hp
        obtain ⟨h1, h2⟩ := hp
        rw [← h1, ← h2]
        rfl

/-- The instrumented run projects onto the plain one. -/
theorem gRun_proj (cfg : Cfg) (info : program_info) : ∀ (n : Nat) (g : GWState),
    wlRun cfg info n g.base = (gRun cfg info n g).map GWState.base := by
  intro n
  induction n with
  | zero => intro g; rfl
  | succ m ih =>
    intro g
    simp only [wlRun, gRun]
    rw [gStep_proj cfg info g]
    cases hs : gStep cfg info g with
    | error e => rfl
    | ok o =>
      cases o with
      | none => rfl
      | some g2 => exact ih g2

/-- Congruence of label sums. -/
theorem sumOver_congr (labels : List Nat) (f g : Nat → Nat)
    (h : ∀ l ∈ labels, f l = g l) : sumOver labels f = sumOver labels g := by
  induction labels with
  | nil => rfl
  | cons a t ih =>
    have h2 := ih (fun l hl => h l (List.mem_cons_of_mem a hl))
    simp only [sumOver, List.map, List.sum_cons] at *
    rw [h a (List.mem_cons_self a t), h2]

/-- Monotonicity of label sums. -/
theorem sumOver_le (labels : List Nat) (f g : Nat → Nat)
    (h : ∀ l ∈ labels, f l ≤ g l) : sumOver labels f ≤ sumOver labels g := by
  induction labels with
  | nil => exact le_refl 0
  | cons a t ih =>
    have h1 := h a (List.mem_cons_self a t)
    have h2 := ih (fun l hl => h l (List.mem_cons_of_mem a hl))
    simp only [sumOver, List.map, List.sum_cons] at *
    omega

/-- Sums of pointwise sums split. -/
theorem sumOver_add (labels : List Nat) (f g : Nat → Nat) :
    sumOver labels (fun l => f l + g l) = sumOver labels f + sumOver labels g := by
  induction labels with
  | nil => rfl
  | cons a t ih =>
    simp only [sumOver, List.map, List.sum_cons] at *
    omega

/-- The zero function sums to zero. -/
theorem sumOver_zero (labels : List Nat) : sumOver labels (fun _ => 0) = 0 := by
  induction labels with
  | nil => rfl
  | cons a t ih =>
    simp only [sumOver, List.map, List.sum_cons] at *
    omega

/-- The sum of an indicator-weighted quantity over a duplicate-free list
containing the marked label. -/
theorem sumOver_indicator (labels : List Nat) (f : Nat → Nat) (x : Nat)
    (hx : x ∈ labels) (hnd : labels.Nodup) :
    sumOver labels (fun p => (if p == x then 1 else 0) * f p) = f x := by
  induction labels with
  | nil => cases hx
  | cons a t ih =>
    simp only [sumOver, List.map, List.sum_cons]
    have hnotin : a ∉ t := (List.nodup_cons.mp hnd).1
    rcases List.mem_cons.mp hx with h1 | h1
    · have ha : (a == x) = true := by simp [h1]
      rw [ha]
      have hz : (List.map (fun p => (if (p == x) = true then 1 else 0) * f p) t).sum = 0 := by
        apply List.sum_eq_zero
        intro y hy
        rcases List.mem_map.mp hy with ⟨l, hl, hye⟩
        have hb : (l == x) = false := by
          simp only [beq_eq_false_iff_ne]
          intro he
          rw [he, h1] at hl
          exact hnotin hl
        rw [← hye, hb]
        simp
      rw [hz, h1]
      simp
    · have ha : (a == x) = false := by
        simp only [beq_eq_false_iff_ne]
        intro he
        rw [← he] at h1
        exact hnotin h1
      rw [ha]
      have h2 := ih h1 (List.nodup_cons.mp hnd).2
      simp only [sumOver] at h2
      rw [h2]
      simp

/-- Bumping a counter at a member of a duplicate-free label list adds one
to its sum. -/
theorem sumOver_bump (labels : List Nat) (f : Nat → Nat) (x : Nat)
    (hx : x ∈ labels) (hnd : labels.Nodup) :
    sumOver labels (bump f x) = sumOver labels f + 1 := by
  have h1 : ∀ l ∈ labels, bump f x l = f l + (if l == x then 1 else 0) * 1 := by
    intro l _
    by_cases h : l = x
    · subst h
      rw [bump_same]
      simp
    · rw [bump_ne _ _ _ h]
      have hb : (l == x) = false := by simpa using h
      simp [hb]
  rw [sumOver_congr labels _ _ h1, sumOver_add, sumOver_indicator labels (fun _ => 1) x hx hnd]

/-- A sum weighted by occurrence counts over a duplicate-free label list
collapses to a sum over the counted list, when that list lives inside the
labels. -/
theorem countMulSum (labels : List Nat) (hnd : labels.Nodup) (f : Nat → Nat) :
    ∀ (xs : List Nat), (∀ y ∈ xs, y ∈ labels) →
      sumOver labels (fun p => List.count p xs * f p) = (xs.map f).sum := by
  intro xs
  induction xs with
  | nil =>
    intro _
    rw [sumOver_congr labels _ (fun _ => 0) ?_]
    · exact sumOver_zero labels
    · intro l _
      simp [List.count_nil]
  | cons x t ih =>
    intro hmem
    have hx : x ∈ labels := hmem x (List.mem_cons_self x t)
    have hcongr : ∀ p ∈ labels, List.count p (x :: t) * f p =
        List.count p t * f p + (if p == x then 1 else 0) * f p := by
      intro p _
      rw [List.count_cons]
      by_cases h : p = x
      · have h1 : (x == p) = true := by simp [h]
        have h2 : (p == x) = true := by simp [h]
        rw [h1, h2, if_pos rfl, Nat.succ_mul, one_mul]
      · have h1 : (x == p) = false := by simpa using Ne.symm h
        have h2 : (p == x) = false := by simpa using h
        rw [h1, h2, if_neg (by simp), zero_mul, Nat.add_zero, Nat.add_zero]
    rw [sumOver_congr labels _ _ hcongr, sumOver_add,
      ih (fun y hy => hmem y (List.mem_cons_of_mem x hy)),
      sumOver_indicator labels f x hx hnd]
    simp [List.map, List.sum_cons]
    omega

/-- Bfuel grows with its fuel. -/
theorem Bfuel_succ_le (cfg : Cfg) (entry : Nat) : ∀ (n : Nat) (l : Nat),
    Bfuel cfg entry n l ≤ Bfuel cfg entry (n + 1) l := by
  intro n
  induction n with
  | zero =>
    intro l
    simp [Bfuel]
  | succ k ih =>
    intro l
    show initOcc entry l + ((cfg.blocks l).prevlist.map (Bfuel cfg entry k)).sum ≤
        initOcc entry l + ((cfg.blocks l).prevlist.map (Bfuel cfg entry (k + 1))).sum
    have hs : ((cfg.blocks l).prevlist.map (Bfuel cfg entry k)).sum ≤
        ((cfg.blocks l).prevlist.map (Bfuel cfg entry (k + 1))).sum :=
      List.sum_le_sum (fun p _ => ih p)
    omega

/-- Bfuel is monotone in its fuel. -/
theorem Bfuel_le (cfg : Cfg) (entry : Nat) : ∀ (n m : Nat), n ≤ m → ∀ (l : Nat),
    Bfuel cfg entry n l ≤ Bfuel cfg entry m l := by
  intro n m h
  induction h with
  | refl => intro l; exact le_refl _
  | step h2 ih =>
    intro l
    exact le_trans (ih l) (Bfuel_succ_le cfg entry _ l)

/-- The head of a nonempty list is a member. -/
theorem headD_mem (w : List Nat) (hne : w ≠ []) : w.headD 0 ∈ w := by
  cases w with
  | nil => exact absurd rfl hne
  | cons a t => exact List.mem_cons_self a t

/-- The instrumented initial state satisfies the counting invariant with
zero total pops. -/
theorem gInit_inv (cfg : Cfg) (info : program_info) (hne : cfg.labels ≠ []) :
    WInv cfg (cfg.labels.headD 0) (gInit cfg info)
    ∧ sumOver cfg.labels (gInit cfg info).pops = 0 := by
  constructor
  · refine ⟨?_, ?_, ?_, ?_, ?_⟩
    · intro l
      simp only [gInit, wlInit, initOcc, List.count_cons, List.count_nil]
      by_cases h : l = cfg.labels.headD 0
      · subst h
        simp
      · have hb1 : (cfg.labels.headD 0 == l) = false := by simpa using Ne.symm h
        have hb2 : (l == cfg.labels.headD 0) = false := by simpa using h
        rw [hb1, hb2]
        simp
    · intro l
      exact le_refl 0
    · intro l
      rw [sumOver_congr cfg.labels _ (fun _ => 0) ?_]
      · exact (sumOver_zero cfg.labels).symm
      · intro p _
        simp [gInit]
    · intro l
      exact le_refl 0
    · intro l hl
      simp only [gInit, wlInit] at hl
      rcases List.mem_cons.mp hl with h1 | h1
      · rw [h1]
        exact headD_mem cfg.labels hne
      · cases h1
  · exact sumOver_zero cfg.labels

/-- One instrumented worklist step preserves the counting invariant and
pops exactly one label of the CFG. -/
theorem gStep_preserves_inv (cfg : Cfg) (info : program_info) (entry : Nat)
    (g g2 : GWState)
    (hnd : cfg.labels.Nodup)
    (hcl : ∀ l ∈ cfg.labels, ∀ s ∈ (cfg.blocks l).nextlist, s ∈ cfg.labels)
    (hinv : WInv cfg entry g)
    (hstep : gStep cfg info g = .ok (some g2)) :
    WInv cfg entry g2 ∧
      sumOver cfg.labels g2.pops = sumOver cfg.labels g.pops + 1 := by
  obtain ⟨⟨w, count, analyzer⟩, pops, chpops, pushes⟩ := g
  obtain ⟨i1, i2, i3, i4, i5⟩ := hinv
  cases w with
  | nil => cases hstep
  | cons label rest =>
    dsimp only at i1 i2 i3 i4 i5
    have hlab : label ∈ cfg.labels := i5 label (List.mem_cons_self label rest)
    simp only [gStep] at hstep
    cases hr : (analyzer.joinInto (cfg.blocks label).prevlist label).recompute info label
        (cfg.blocks label) with
    | error e => rw [hr, exceptBind_error] at hstep; cases hstep
    | ok ab =>
      rw [hr, exceptBind_ok] at hstep
      obtain ⟨a2, changed⟩ := ab
      cases changed with
      | false =>
        cases hstep
        refine ⟨⟨?_, i2, i3, ?_, ?_⟩, ?_⟩
        · intro l
          dsimp only
          have h1 := i1 l
          rw [List.count_cons] at h1
          by_cases hx : l = label
          · subst hx
            rw [bump_same]
            simp only [beq_self_eq_true, if_pos] at h1
            omega
          · rw [bump_ne _ _ _ hx]
            have hb : (label == l) = false := by simpa using Ne.symm hx
            rw [hb, if_neg (by simp)] at h1
            omega
        · intro l
          dsimp only
          have h4 := i4 l
          by_cases hx : l = label
          · subst hx
            rw [bump_same]
            omega
          · rw [bump_ne _ _ _ hx]
            exact h4
        · intro l hl
          exact i5 l (List.mem_cons_of_mem label hl)
        · dsimp only
          exact sumOver_bump cfg.labels pops label hlab hnd
      | true =>
        cases hstep
        set acc := gPushSuccs cfg (cfg.blocks label).nextlist ⟨count, rest, pushes⟩
          with hacc
        have hcnt : ∀ l, acc.count l = count l + List.count l (cfg.blocks label).nextlist :=
          fun l => gPushSuccs_count cfg (cfg.blocks label).nextlist ⟨count, rest, pushes⟩ l
        have hple : ∀ l, acc.pushes l ≤ acc.count l :=
          gPushSuccs_pushes_le cfg (cfg.blocks label).nextlist ⟨count, rest, pushes⟩ i2
        have hwc : ∀ l, List.count l acc.w + pushes l =
            List.count l rest + acc.pushes l :=
          fun l => gPushSuccs_w_count cfg (cfg.blocks label).nextlist ⟨count, rest, pushes⟩ l
        have hwm : ∀ x, x ∈ acc.w → x ∈ rest ∨ x ∈ (cfg.blocks label).nextlist :=
          fun x => gPushSuccs_w_mem cfg (cfg.blocks label).nextlist ⟨count, rest, pushes⟩ x
        refine ⟨⟨?_, hple, ?_, ?_, ?_⟩, ?_⟩
        · intro l
          dsimp only
          have h1 := i1 l
          rw [List.count_cons] at h1
          have hd := dedupConsec_count_le l acc.w
          have hwcl := hwc l
          by_cases hx : l = label
          · subst hx
            rw [bump_same]
            simp only [beq_self_eq_true, if_pos] at h1
            omega
          · rw [bump_ne _ _ _ hx]
            have hb : (label == l) = false := by simpa using Ne.symm hx
            rw [hb, if_neg (by simp)] at h1
            omega
        · intro l
          dsimp only
          rw [hcnt l, i3 l]
          have hcg : ∀ p ∈ cfg.labels,
              List.count l (cfg.blocks p).nextlist * bump chpops label p =
                List.count l (cfg.blocks p).nextlist * chpops p
                  + (if p == label then 1 else 0) * List.count l (cfg.blocks p).nextlist := by
            intro p _
            by_cases hx : p = label
            · subst hx
              rw [bump_same]
              simp only [beq_self_eq_true, if_pos, one_mul, Nat.mul_succ]
            · rw [bump_ne _ _ _ hx]
              have hb : (p == label) = false := by simpa using hx
              rw [hb, if_neg (by simp), zero_mul, Nat.add_zero]
          rw [sumOver_congr cfg.labels _ _ hcg, sumOver_add,
            sumOver_indicator cfg.labels (fun p => List.count l (cfg.blocks p).nextlist)
              label hlab hnd]
        · intro l
          dsimp only
          have h4 := i4 l
          by_cases hx : l = label
          · subst hx
            rw [bump_same, bump_same]
            omega
          · rw [bump_ne _ _ _ hx, bump_ne _ _ _ hx]
            exact h4
        · intro l hl
          rcases hwm l (dedupConsec_mem l acc.w (by exact hl)) with h1 | h1
          · exact i5 l (List.mem_cons_of_mem label h1)
          · exact hcl label hlab l h1
        · dsimp only
          exact sumOver_bump cfg.labels pops label hlab hnd

/-- From the counting invariant, the pops of a label are bounded by its
initial occurrence plus the pops of its predecessors, counted with
multiplicity. -/
theorem pops_le_initOcc_add (cfg : Cfg) (entry : Nat) (g : GWState)
    (hnd : cfg.labels.Nodup)
    (hpredsIn : ∀ l ∈ cfg.labels, ∀ p ∈ (cfg.blocks l).prevlist, p ∈ cfg.labels)
    (hcons : ∀ l ∈ cfg.labels, ∀ p ∈ cfg.labels,
        List.count l (cfg.blocks p).nextlist = List.count p (cfg.blocks l).prevlist)
    (hinv : WInv cfg entry g) :
    ∀ l ∈ cfg.labels,
      g.pops l ≤ initOcc entry l + (((cfg.blocks l).prevlist).map g.pops).sum := by
  intro l hl
  obtain ⟨i1, i2, i3, i4, i5⟩ := hinv
  have h1 : g.pops l ≤ initOcc entry l + g.pushes l := by
    have := i1 l
    omega
  have h2 : g.pushes l ≤ g.base.count l := i2 l
  have h3 := i3 l
  have h4 : sumOver cfg.labels (fun p => List.count l (cfg.blocks p).nextlist * g.chpops p)
      = sumOver cfg.labels (fun p => List.count p (cfg.blocks l).prevlist * g.chpops p) := by
    apply sumOver_congr
    intro p hp
    rw [hcons l hl p hp]
  have h5 : sumOver cfg.labels (fun p => List.count p (cfg.blocks l).prevlist * g.chpops p)
      ≤ sumOver cfg.labels (fun p => List.count p (cfg.blocks l).prevlist * g.pops p) := by
    apply sumOver_le
    intro p _
    exact Nat.mul_le_mul_left _ (i4 p)
  have h6 : sumOver cfg.labels (fun p => List.count p (cfg.blocks l).prevlist * g.pops p)
      = (((cfg.blocks l).prevlist).map g.pops).sum :=
    countMulSum cfg.labels hnd g.pops (cfg.blocks l).prevlist (hpredsIn l hl)
  omega

/-- From the counting invariant and a topological rank function, the pops
of every label are bounded by its Bfuel bound. -/
theorem pops_le_Bfuel (cfg : Cfg) (entry : Nat) (rank : Nat → Nat) (g : GWState)
    (hnd : cfg.labels.Nodup)
    (hpredsIn : ∀ l ∈ cfg.labels, ∀ p ∈ (cfg.blocks l).prevlist, p ∈ cfg.labels)
    (hcons : ∀ l ∈ cfg.labels, ∀ p ∈ cfg.labels,
        List.count l (cfg.blocks p).nextlist = List.count p (cfg.blocks l).prevlist)
    (hrank : ∀ l ∈ cfg.labels, ∀ p ∈ (cfg.blocks l).prevlist, rank p < rank l)
    (hinv : WInv cfg entry g) :
    ∀ l ∈ cfg.labels, g.pops l ≤ Bfuel cfg entry (rank l) l := by
  have hbase := pops_le_initOcc_add cfg entry g hnd hpredsIn hcons hinv
  have key : ∀ (r : Nat), ∀ l ∈ cfg.labels, rank l ≤ r →
      g.pops l ≤ Bfuel cfg entry (rank l) l := by
    intro r
    induction r with
    | zero =>
      intro l hl hr0
      have hempty : (cfg.blocks l).prevlist = [] := by
        cases hp : (cfg.blocks l).prevlist with
        | nil => rfl
        | cons p t =>
          exfalso
          have := hrank l hl p (by rw [hp]; exact List.mem_cons_self p t)
          omega
      have := hbase l hl
      rw [hempty] at this
      simp at this
      have hr : rank l = 0 := by omega
      rw [hr]
      simpa [Bfuel] using this
    | succ n ih =>
      intro l hl hr
      by_cases h0 : rank l ≤ n
      · exact ih l hl h0
      · have hrl : rank l = n + 1 := by omega
        have hstep := hbase l hl
        have hsum : (((cfg.blocks l).prevlist).map g.pops).sum ≤
            (((cfg.blocks l).prevlist).map (Bfuel cfg entry n)).sum := by
          apply List.sum_le_sum
          intro p hp
          have hpin : p ∈ cfg.labels := hpredsIn l hl p hp
          have hplt : rank p < rank l := hrank l hl p hp
          have hple : g.pops p ≤ Bfuel cfg entry (rank p) p := ih p hpin (by omega)
          exact le_trans hple (Bfuel_le cfg entry (rank p) n (by omega) p)
        rw [hrl]
        show g.pops l ≤ initOcc entry l +
          (((cfg.blocks l).prevlist).map (Bfuel cfg entry n)).sum
        omega
  exact fun l hl => key (rank l) l hl (le_refl _)

/-- Running the instrumented worklist either errors out, empties the
FIFO, or pops one label per iteration. -/
theorem gRun_inv (cfg : Cfg) (info : program_info) (entry : Nat)
    (hnd : cfg.labels.Nodup)
    (hcl : ∀ l ∈ cfg.labels, ∀ s ∈ (cfg.blocks l).nextlist, s ∈ cfg.labels) :
    ∀ (n : Nat) (g : GWState) (k : Nat), WInv cfg entry g →
      sumOver cfg.labels g.pops = k →
      (∃ e, gRun cfg info n g = .error e)
      ∨ ∃ g2, gRun cfg info n g = .ok g2 ∧ WInv cfg entry g2 ∧
          (g2.base.w = [] ∨ sumOver cfg.labels g2.pops = k + n) := by
  intro n
  induction n with
  | zero =>
    intro g k hinv hsum
    right
    exact ⟨g, rfl, hinv, Or.inr (by omega)⟩
  | succ m ih =>
    intro g k hinv hsum
    cases hs : gStep cfg info g with
    | error e =>
      left
      refine ⟨e, ?_⟩
      simp only [gRun, hs]
    | ok o =>
      cases o with
      | none =>
        right
        refine ⟨g, ?_, hinv, Or.inl (gStep_none cfg info g hs)⟩
        simp only [gRun, hs]
      | some g2 =>
        obtain ⟨hinv2, hsum2⟩ :=
          gStep_preserves_inv cfg info entry g g2 hnd hcl hinv hs
        have hrun : gRun cfg info (m + 1) g = gRun cfg info m g2 := by
          simp only [gRun, hs]
        rcases ih g2 (k + 1) hinv2 (by omega) with ⟨e, he⟩ | ⟨g3, hg3, hinv3, hd⟩
        · left
          exact ⟨e, by rw [hrun]; exact he⟩
        · right
          refine ⟨g3, by rw [hrun]; exact hg3, hinv3, ?_⟩
          rcases hd with h | h
          · exact Or.inl h
          · exact Or.inr (by omega)

/-- C2: The worklist driver keeps a FIFO of labels initialised to the
singleton entry label (wlInit); each step pops a label, joins the
predecessors' post states into pre, recomputes post by running every
instruction's transfer, and only on change bumps each successor's counter,
pushing a successor once its counter reaches its predecessor count, then
deduplicates consecutive labels (wlStep, embedding the source loop); on a
DAG CFG — witnessed by a rank function strictly increasing along edges —
the loop terminates: some finite iteration count reaches the done state
(empty FIFO, or a fatal analysis error that stops the loop). -/
theorem C2_worklist_terminates (cfg : Cfg) (info : program_info) (rank : Nat → Nat)
    (hne : cfg.labels ≠ [])
    (hnd : cfg.labels.Nodup)
    (hcl : ∀ l ∈ cfg.labels, ∀ s ∈ (cfg.blocks l).nextlist, s ∈ cfg.labels)
    (hpredsIn : ∀ l ∈ cfg.labels, ∀ p ∈ (cfg.blocks l).prevlist, p ∈ cfg.labels)
    (hcons : ∀ l ∈ cfg.labels, ∀ p ∈ cfg.labels,
        List.count l (cfg.blocks p).nextlist = List.count p (cfg.blocks l).prevlist)
    (hrank : ∀ l ∈ cfg.labels, ∀ p ∈ (cfg.blocks l).prevlist, rank p < rank l) :
    ∃ n, WLdone (wlRun cfg info n (wlInit cfg info)) := by
  classical
  set entry := cfg.labels.headD 0 with hentry
  set N := sumOver cfg.labels (fun l => Bfuel cfg entry (rank l) l) + 1 with hN
  refine ⟨N, ?_⟩
  obtain ⟨hinv0, hsum0⟩ := gInit_inv cfg info hne
  have hproj : wlRun cfg info N (wlInit cfg info)
      = (gRun cfg info N (gInit cfg info)).map GWState.base :=
    gRun_proj cfg info N (gInit cfg info)
  rcases gRun_inv cfg info entry hnd hcl N (gInit cfg info) 0 hinv0 hsum0 with
    ⟨e, he⟩ | ⟨g2, hg2, hinv2, hd⟩
  · rw [hproj, he]
    exact trivial
  · rcases hd with hw | hsum
    · rw [hproj, hg2]
      exact hw
    · exfalso
      have hb := pops_le_Bfuel cfg entry rank g2 hnd hpredsIn hcons hrank hinv2
      have hle : sumOver cfg.labels g2.pops
          ≤ sumOver cfg.labels (fun l => Bfuel cfg entry (rank l) l) :=
        sumOver_le cfg.labels _ _ hb
      omega

/-- The termination theorem evaluated on the concrete two-label chain CFG
with the identity rank function. -/
theorem C2_worklist_terminates_witness :
    ∃ n, WLdone (wlRun cfgTwo infoNoMaps n (wlInit cfgTwo infoNoMaps)) :=
  C2_worklist_terminates cfgTwo infoNoMaps (fun l => l)
    (by decide) (by decide) (by decide) (by decide) (by decide) (by decide)

end EbpfAi
